import Mathlib

/-!
Verification of the QCustomPlot color-gradient engine (`src/colorgradient.cpp`)
and the bar-chart stacking/grouping logic (`src/plottables/plottable-bars.cpp`).

Real (`double`) arithmetic of the C++ source is modelled exactly over `ℚ`;
the C cast from `double` to `int` is truncation toward zero (`ratTrunc`);
the C++ `%` on `int` is `Int.tmod` (sign follows the dividend).  The natural
logarithm `qLn` is not rational-definable, so functions that use it take an
arbitrary function `lnq : ℚ → ℚ` as an explicit argument; every theorem below
holds for all such functions, hence in particular for the real logarithm.
-/

namespace QCPVerify

/-- Truncation toward zero, the semantics of the C cast `(int)` applied to a
`double` value: the ceiling for negative values, the floor otherwise. -/
def ratTrunc (q : ℚ) : ℤ := if q < 0 then ⌈q⌉ else ⌊q⌋

/-- An RGB color triple.  `QRgb` values produced by `qRgb` always have the
three channels reduced modulo 256 (the `& 0xff` masks inside the `qRgb`
macro). -/
structure RgbColor where
  r : ℤ
  g : ℤ
  b : ℤ
deriving DecidableEq

/-- The `qRgb(r, g, b)` macro: each channel is masked with `0xff`, which on
two's-complement integers is `emod 256`. -/
def qRgb (r g b : ℤ) : RgbColor := ⟨r % 256, g % 256, b % 256⟩

/-- Color interpolation modes (source: `QCPColorGradient::ColorInterpolation`). -/
inductive ColorInterpolation where
  | ciRGB
  | ciHSV
deriving DecidableEq

/-- A range on an axis (source: `QCPRange`), with `size() = upper - lower`. -/
structure QCPRange where
  lower : ℚ
  upper : ℚ
deriving DecidableEq

/-- The `QCPRange::size` accessor. -/
def QCPRange.size (r : QCPRange) : ℚ := r.upper - r.lower

/-- Modelled from the spec: the GUI toolkit's conversion of an RGB color to
hue/saturation/value coordinates, each in `[0,1]` (hue of an achromatic color
is taken to be 0).  The toolkit (`QColor::toHsv`, `hueF`, `saturationF`,
`valueF`) is an external collaborator of this repository; the spec only says
"convert both endpoint colors to hue/saturation/value". -/
def rgbToHsv (c : RgbColor) : ℚ × ℚ × ℚ :=
  let r : ℚ := (c.r : ℚ) / 255
  let g : ℚ := (c.g : ℚ) / 255
  let b : ℚ := (c.b : ℚ) / 255
  let mx := max r (max g b)
  let mn := min r (min g b)
  let d := mx - mn
  let v := mx
  let s := if mx = 0 then 0 else d / mx
  let h0 : ℚ :=
    if d = 0 then 0
    else if mx = r then (g - b) / d
    else if mx = g then (b - r) / d + 2
    else (r - g) / d + 4
  let h1 := h0 / 6
  let h := if h1 < 0 then h1 + 1 else h1
  (h, s, v)

/-- Modelled from the spec: the GUI toolkit's conversion from hue/saturation/
value coordinates in `[0,1]` back to an RGB color
(`QColor::fromHsvF(...).rgb()`), with each channel rounded to the nearest
integer in `0..255`. -/
def hsvToRgb (h s v : ℚ) : RgbColor :=
  let i : ℤ := ⌊h * 6⌋
  let f : ℚ := h * 6 - (i : ℚ)
  let p : ℚ := v * (1 - s)
  let q : ℚ := v * (1 - f * s)
  let t : ℚ := v * (1 - (1 - f) * s)
  let rd : ℚ → ℤ := fun x => ⌊x * 255 + 1/2⌋
  match (i % 6).toNat with
  | 0 => qRgb (rd v) (rd t) (rd p)
  | 1 => qRgb (rd q) (rd v) (rd p)
  | 2 => qRgb (rd p) (rd v) (rd t)
  | 3 => qRgb (rd p) (rd q) (rd v)
  | 4 => qRgb (rd t) (rd p) (rd v)
  | _ => qRgb (rd v) (rd p) (rd q)

/-- The interpolation between two adjacent color stops performed inside
`QCPColorGradient::updateColorBuffer` (the `else` branch of the buffer loop,
source lines 437-468).  `low` and `high` are the stops below and at/above
`position`; `t` is the interpolation factor. -/
def interpolateStops (mode : ColorInterpolation) (low high : ℚ × RgbColor)
    (position : ℚ) : RgbColor :=
  let t : ℚ := (position - low.1) / (high.1 - low.1)
  match mode with
  | ColorInterpolation.ciRGB =>
      qRgb (ratTrunc ((1 - t) * (low.2.r : ℚ) + t * (high.2.r : ℚ)))
           (ratTrunc ((1 - t) * (low.2.g : ℚ) + t * (high.2.g : ℚ)))
           (ratTrunc ((1 - t) * (low.2.b : ℚ) + t * (high.2.b : ℚ)))
  | ColorInterpolation.ciHSV =>
      let lowHsv := rgbToHsv low.2
      let highHsv := rgbToHsv high.2
      let hueDiff : ℚ := highHsv.1 - lowHsv.1
      let hue0 : ℚ :=
        if 1/2 < hueDiff then lowHsv.1 - t * (1 - hueDiff)
        else if hueDiff < -(1/2) then lowHsv.1 + t * (1 + hueDiff)
        else lowHsv.1 + t * hueDiff
      let hue : ℚ := if hue0 < 0 then hue0 + 1
        else if 1 ≤ hue0 then hue0 - 1 else hue0
      hsvToRgb hue
        ((1 - t) * lowHsv.2.1 + t * highHsv.2.1)
        ((1 - t) * lowHsv.2.2 + t * highHsv.2.2)

/-- The state of a `QCPColorGradient`.  The color-stop map (`QMap<double,
QColor>`) is modelled as its list of entries in ascending key order (a `QMap`
invariant); the stop colors are stored as their RGB triples. -/
structure QCPColorGradient where
  mLevelCount : ℕ
  mColorInterpolation : ColorInterpolation
  mPeriodic : Bool
  mColorStops : List (ℚ × RgbColor)
  mColorBuffer : List RgbColor
  mColorBufferInvalidated : Bool
deriving DecidableEq

namespace QCPColorGradient

/-- Black, the fill color for a gradient without stops. -/
def blackRgb : RgbColor := qRgb 0 0 0

/-- The entry the buffer-rebuild loop of `updateColorBuffer` computes for
slot `i` when there are at least two stops (source lines 427-470).
`QMap::lowerBound(position)` returns the first entry with key `≥ position`,
which on the ascending entry list is `findIdx`. -/
def bufferEntry (g : QCPColorGradient) (i : ℕ) : RgbColor :=
  let position : ℚ := (i : ℚ) * (1 / ((g.mLevelCount : ℚ) - 1))
  let j := g.mColorStops.findIdx (fun sp => position ≤ sp.1)
  if j = g.mColorStops.length then
    (g.mColorStops.getLastD (0, blackRgb)).2
  else if j = 0 then
    (g.mColorStops.headD (0, blackRgb)).2
  else
    interpolateStops g.mColorInterpolation
      (g.mColorStops.getD (j - 1) (0, blackRgb))
      (g.mColorStops.getD j (0, blackRgb))
      position

/-- The buffer contents `QCPColorGradient::updateColorBuffer` computes
(source lines 420-479): resize to `mLevelCount`; with more than one stop run
the interpolation loop, with exactly one stop fill with its color, otherwise
fill with black. -/
def updateColorBuffer (g : QCPColorGradient) : List RgbColor :=
  if 1 < g.mColorStops.length then
    (List.range g.mLevelCount).map (fun i => bufferEntry g i)
  else if g.mColorStops.length = 1 then
    List.replicate g.mLevelCount (g.mColorStops.headD (0, blackRgb)).2
  else
    List.replicate g.mLevelCount blackRgb

/-- The buffer `color`/`colorize` actually read: the stored buffer, rebuilt
first when the invalidation flag is set. -/
def currentBuffer (g : QCPColorGradient) : List RgbColor :=
  if g.mColorBufferInvalidated then updateColorBuffer g else g.mColorBuffer

/-- `mColorBuffer.at(index)`: buffer lookup at a (already wrapped/clamped)
index. -/
def bufAt (buf : List RgbColor) (idx : ℤ) : RgbColor :=
  buf.getD idx.toNat blackRgb

/-- Periodic index wrap of `color`/`colorize`: `index % mLevelCount` with the
negative-result correction (C++ `%` truncates toward zero, `Int.tmod`). -/
def wrapIndex (n : ℕ) (idx : ℤ) : ℤ :=
  if idx.tmod (n : ℤ) < 0 then idx.tmod (n : ℤ) + (n : ℤ) else idx.tmod (n : ℤ)

/-- Non-periodic index clamp of `color`/`colorize` to `[0, mLevelCount-1]`. -/
def clampIndex (n : ℕ) (idx : ℤ) : ℤ :=
  if idx < 0 then 0
  else if (n : ℤ) ≤ idx then (n : ℤ) - 1
  else idx

/-- The raw (pre-wrap, pre-clamp) index computed by
`QCPColorGradient::color` (source lines 258-262), with the index arithmetic
idealized over exact reals (ℚ).  The IEEE-binary64-faithful version of this
index computation is `colorRawIndexF` below; under double rounding it can
differ from `colorizeRawIndexF` (see the counterexample for claim C1). -/
def colorRawIndex (g : QCPColorGradient) (position : ℚ) (range : QCPRange)
    (logarithmic : Bool) (lnq : ℚ → ℚ) : ℤ :=
  if logarithmic then
    ratTrunc (lnq (position / range.lower) / lnq (range.upper / range.lower) *
      ((g.mLevelCount : ℚ) - 1))
  else
    ratTrunc ((position - range.lower) * ((g.mLevelCount : ℚ) - 1) / range.size)

/-- The final buffer index of `QCPColorGradient::color` after the periodic
wrap or the clamp (source lines 263-274). -/
def colorIndex (g : QCPColorGradient) (position : ℚ) (range : QCPRange)
    (logarithmic : Bool) (lnq : ℚ → ℚ) : ℤ :=
  if g.mPeriodic then wrapIndex g.mLevelCount (colorRawIndex g position range logarithmic lnq)
  else clampIndex g.mLevelCount (colorRawIndex g position range logarithmic lnq)

/-- `QCPColorGradient::color` as a state transformer: it lazily rebuilds the
buffer (clearing the invalidation flag) and returns the looked-up color
together with the updated gradient. -/
def colorCall (g : QCPColorGradient) (position : ℚ) (range : QCPRange)
    (logarithmic : Bool) (lnq : ℚ → ℚ) : RgbColor × QCPColorGradient :=
  let g1 := if g.mColorBufferInvalidated then
      { g with mColorBuffer := updateColorBuffer g, mColorBufferInvalidated := false }
    else g
  (bufAt g1.mColorBuffer (colorIndex g1 position range logarithmic lnq), g1)

/-- The color returned by `QCPColorGradient::color`. -/
def color (g : QCPColorGradient) (position : ℚ) (range : QCPRange)
    (logarithmic : Bool) (lnq : ℚ → ℚ) : RgbColor :=
  (colorCall g position range logarithmic lnq).1

/-- `QCPColorGradient::colorize` (source lines 178-242).  The C array `data`
is modelled as a total function from indices; the output scan line is the
returned list of length `n`.  The four loops of the source (linear/
logarithmic crossed with periodic/clamped) are mirrored including the
factored-out `posToIndexFactor` of the linear case; as in `color`, the index
arithmetic is idealized over exact reals, where the factored scale is
associativity-equal to `color`'s form — the binary64-faithful index of this
loop is `colorizeRawIndexF`. -/
def colorize (g : QCPColorGradient) (data : ℕ → ℚ) (range : QCPRange)
    (n : ℕ) (dataIndexFactor : ℕ) (logarithmic : Bool) (lnq : ℚ → ℚ) :
    List RgbColor :=
  let buf := currentBuffer g
  if logarithmic then
    if g.mPeriodic then
      (List.range n).map (fun i =>
        bufAt buf (wrapIndex g.mLevelCount (ratTrunc
          (lnq (data (dataIndexFactor * i) / range.lower) /
            lnq (range.upper / range.lower) * ((g.mLevelCount : ℚ) - 1)))))
    else
      (List.range n).map (fun i =>
        bufAt buf (clampIndex g.mLevelCount (ratTrunc
          (lnq (data (dataIndexFactor * i) / range.lower) /
            lnq (range.upper / range.lower) * ((g.mLevelCount : ℚ) - 1)))))
  else
    let posToIndexFactor : ℚ := ((g.mLevelCount : ℚ) - 1) / range.size
    if g.mPeriodic then
      (List.range n).map (fun i =>
        bufAt buf (wrapIndex g.mLevelCount (ratTrunc
          ((data (dataIndexFactor * i) - range.lower) * posToIndexFactor))))
    else
      (List.range n).map (fun i =>
        bufAt buf (clampIndex g.mLevelCount (ratTrunc
          ((data (dataIndexFactor * i) - range.lower) * posToIndexFactor))))

/-- The gradient comparison `QCPColorGradient::operator==` (source lines
74-80): level count, interpolation mode, periodic flag and the stop map are
compared; the buffer and its invalidation flag are not. -/
def gradientEq (a other : QCPColorGradient) : Prop :=
  other.mLevelCount = a.mLevelCount ∧
  other.mColorInterpolation = a.mColorInterpolation ∧
  other.mPeriodic = a.mPeriodic ∧
  other.mColorStops = a.mColorStops

instance (a other : QCPColorGradient) : Decidable (gradientEq a other) := by
  unfold gradientEq
  infer_instance

end QCPColorGradient

/-- The sign-domain filter `QCP::SignDomain` used by range queries. -/
inductive SignDomain where
  | sdNegative
  | sdBoth
  | sdPositive
deriving DecidableEq

/-- The per-series state of a `QCPBars` needed for value computations: its
base value and its data container, the latter modelled as the list of
`(key, value)` points in ascending key order. -/
structure BarsData where
  mBaseValue : ℚ
  points : List (ℚ × ℚ)
deriving DecidableEq

namespace QCPBars

/-- The key-match tolerance of `QCPBars::getStackedBaseValue` (source lines
971-973): relative epsilon `|key| * 1e-6`, overridden to `1e-6` when the key
is exactly 0. -/
def keyEpsilon (key : ℚ) : ℚ :=
  if key = 0 then 1 / 1000000 else |key| * (1 / 1000000)

/-- The inner loop of `QCPBars::getStackedBaseValue` (source lines 974-985):
over the below-series' data, keep the largest (positive) or smallest
(negative) value among points whose key lies strictly within the tolerance
window, starting from 0.  The container window iteration of the source
re-checks the strict bounds on every point, so folding over the whole sorted
list is exact. -/
def belowMaxAt (data : List (ℚ × ℚ)) (key : ℚ) (positive : Bool) : ℚ :=
  let eps := keyEpsilon key
  data.foldl (fun mx p =>
    if key - eps < p.1 ∧ p.1 < key + eps then
      if (positive = true ∧ mx < p.2) ∨ (positive = false ∧ p.2 < mx) then p.2
      else mx
    else mx) 0

/-- `QCPBars::getStackedBaseValue` (source lines 965-990).  The acyclic
`barBelow` pointer chain below the series is passed explicitly as the list
`chain` (first element = the series directly below, and so on); the source
recursion on `mBarBelow` becomes structural recursion on that list. -/
def getStackedBaseValue (s : BarsData) (chain : List BarsData) (key : ℚ)
    (positive : Bool) : ℚ :=
  match chain with
  | [] => s.mBaseValue
  | b :: rest => belowMaxAt b.points key positive + getStackedBaseValue b rest key positive

/-- Stated from the spec's words for claim C3: among the below-series' data
points whose key lies strictly within the relative tolerance, the maximal
value if positive (minimal if not), counting only values on the requested
sign side, and 0 when no such point contributes. -/
def specContribution (data : List (ℚ × ℚ)) (key : ℚ) (positive : Bool) : ℚ :=
  let eps := keyEpsilon key
  let matching := (data.filter
    (fun p => decide (key - eps < p.1 ∧ p.1 < key + eps))).map Prod.snd
  if positive then (matching.filter (fun v => decide (0 < v))).foldr max 0
  else (matching.filter (fun v => decide (v < 0))).foldr min 0

/-- The loop body of `QCPBars::getValueRange` (source lines 1067-1085) for
one data point whose stacked cumulative value is `current`: if it passes the
sign-domain filter, lower the range's lower bound and raise its upper bound
(the two sequential `if`s of the source, flattened; the lower update does not
touch the fields the upper check reads).  The accumulator carries the range
and the `haveLower`/`haveUpper` flags. -/
def valueRangeStep (sd : SignDomain) (current : ℚ)
    (acc : QCPRange × Bool × Bool) : QCPRange × Bool × Bool :=
  if sd = SignDomain.sdBoth ∨ (sd = SignDomain.sdNegative ∧ current < 0) ∨
      (sd = SignDomain.sdPositive ∧ 0 < current) then
    if current < acc.1.lower ∨ ¬acc.2.1 then
      if acc.1.upper < current ∨ ¬acc.2.2 then ((⟨current, current⟩ : QCPRange), true, true)
      else ((⟨current, acc.1.upper⟩ : QCPRange), true, acc.2.2)
    else
      if acc.1.upper < current ∨ ¬acc.2.2 then ((⟨acc.1.lower, current⟩ : QCPRange), acc.2.1, true)
      else acc
  else acc

/-- `QCPBars::getValueRange` (source lines 1056-1089): start from the base
value with both found-flags already true, scan all data points, and widen the
range by each stacked cumulative value passing the sign-domain filter.
Returns the range together with the `foundRange` output flag. -/
def getValueRange (s : BarsData) (chain : List BarsData) (sd : SignDomain) :
    QCPRange × Bool :=
  let r := s.points.foldl (fun acc p =>
    valueRangeStep sd (p.2 + getStackedBaseValue s chain p.1 (decide (0 ≤ p.2))) acc)
    (⟨s.mBaseValue, s.mBaseValue⟩, true, true)
  (r.1, true)

end QCPBars

/-- The stacking-link state of all `QCPBars` objects of a plot: the
`mBarBelow`/`mBarAbove` guarded pointers and the key/value axis each series
was constructed with.  Series are identified by elements of `ι` (standing for
the C++ object identities). -/
structure StackState (ι : Type) where
  below : ι → Option ι
  above : ι → Option ι
  keyAx : ι → ℕ
  valAx : ι → ℕ

namespace StackState

variable {ι : Type} [DecidableEq ι]

/-- `QCPBars::connectBars(lower, upper)` (source lines 1000-1027): link the
two series (either may be absent), first detaching whatever was above
`lower` or below `upper`. -/
def connectBars (s : StackState ι) : Option ι → Option ι → StackState ι
  | none, none => s
  | some l, none =>
      let s1 := match s.above l with
        | some x => if s.below x = some l then
            { s with below := Function.update s.below x none } else s
        | none => s
      { s1 with above := Function.update s1.above l none }
  | none, some u =>
      let s1 := match s.below u with
        | some x => if s.above x = some u then
            { s with above := Function.update s.above x none } else s
        | none => s
      { s1 with below := Function.update s1.below u none }
  | some l, some u =>
      let s1 := match s.above l with
        | some x => if s.below x = some l then
            { s with below := Function.update s.below x none } else s
        | none => s
      let s2 := match s1.below u with
        | some y => if s1.above y = some u then
            { s1 with above := Function.update s1.above y none } else s1
        | none => s1
      { s2 with above := Function.update s2.above l (some u),
                below := Function.update s2.below u (some l) }

/-- `QCPBars::moveAbove` (source lines 679-696) acting on the link state:
self-target and axis mismatch abort; otherwise unlink `a` and splice it
directly above the target. -/
def moveAbove (s : StackState ι) (a : ι) : Option ι → StackState ι
  | some bb =>
      if bb = a then s
      else if s.keyAx bb ≠ s.keyAx a ∨ s.valAx bb ≠ s.valAx a then s
      else
        let s1 := connectBars s (s.below a) (s.above a)
        let s2 := match s1.above bb with
          | some c => connectBars s1 (some a) (some c)
          | none => s1
        connectBars s2 (some bb) (some a)
  | none => connectBars s (s.below a) (s.above a)

/-- `QCPBars::moveBelow` (source lines 646-663), the mirror image of
`moveAbove`. -/
def moveBelow (s : StackState ι) (a : ι) : Option ι → StackState ι
  | some bb =>
      if bb = a then s
      else if s.keyAx bb ≠ s.keyAx a ∨ s.valAx bb ≠ s.valAx a then s
      else
        let s1 := connectBars s (s.below a) (s.above a)
        let s2 := match s1.below bb with
          | some c => connectBars s1 (some c) (some a)
          | none => s1
        connectBars s2 (some a) (some bb)
  | none => connectBars s (s.below a) (s.above a)

/-- The stack-unlinking part of the `QCPBars` destructor (source lines
550-555): when the series has a neighbor, take it out of the stacking via
`connectBars` (the group-membership part of the destructor acts on the
separate group state). -/
def destructUnlink (s : StackState ι) (a : ι) : StackState ι :=
  if (s.below a).isSome ∨ (s.above a).isSome then
    connectBars s (s.below a) (s.above a)
  else s

/-- The doubly-linked-chain consistency of the stacking pointers: `y` is
recorded above `x` exactly when `x` is recorded below `y`. -/
def Consistent (s : StackState ι) : Prop :=
  ∀ x y, s.above x = some y ↔ s.below y = some x

instance [Fintype ι] (s : StackState ι) : Decidable (Consistent s) := by
  unfold Consistent
  infer_instance

end StackState

/-- The bidirectional group-membership state: each group's ordered member
list (`QCPBarsGroup::mBars`) and each series' group back-reference
(`QCPBars::mBarsGroup`).  Series are identified by `β`, groups by `γ`. -/
structure GroupsState (β γ : Type) where
  members : γ → List β
  barsGroupOf : β → Option γ

namespace GroupsState

variable {β γ : Type} [DecidableEq β] [DecidableEq γ]

/-- `QCPBarsGroup::registerBars` (source lines 240-244): append to the member
list unless already present. -/
def registerBars (s : GroupsState β γ) (g : γ) (b : β) : GroupsState β γ :=
  if b ∈ s.members g then s
  else { s with members := Function.update s.members g (s.members g ++ [b]) }

/-- `QCPBarsGroup::unregisterBars` (source lines 253-256): `removeOne`
removes the first occurrence from the member list. -/
def unregisterBars (s : GroupsState β γ) (g : γ) (b : β) : GroupsState β γ :=
  { s with members := Function.update s.members g ((s.members g).erase b) }

/-- `QCPBars::setBarsGroup` (source lines 587-596): deregister at the old
group, store the new back-reference, register at the new group. -/
def setBarsGroup (s : GroupsState β γ) (b : β) (gOpt : Option γ) : GroupsState β γ :=
  let s1 := match s.barsGroupOf b with
    | some old => unregisterBars s old b
    | none => s
  let s2 := { s1 with barsGroupOf := Function.update s1.barsGroupOf b gOpt }
  match gOpt with
  | some g => registerBars s2 g b
  | none => s2

/-- `QCPBarsGroup::append` (source lines 176-188): route through
`setBarsGroup` unless the series is already a member. -/
def appendBars (s : GroupsState β γ) (g : γ) (b : β) : GroupsState β γ :=
  if b ∈ s.members g then s else setBarsGroup s b (some g)

/-- `QList::move(from, to)`: take the element at `fromIdx` out and re-insert
it at `toIdx`. -/
def listMove (l : List β) (fromIdx toIdx : ℕ) : List β :=
  match l[fromIdx]? with
  | some x => (l.eraseIdx fromIdx).insertIdx toIdx x
  | none => l

/-- `QCPBarsGroup::insert` (source lines 199-212): first append normally via
`setBarsGroup` when not yet a member, then move the series to position
`qBound(0, i, size-1)`. -/
def insertBars (s : GroupsState β γ) (g : γ) (i : ℤ) (b : β) : GroupsState β γ :=
  let s1 := if b ∈ s.members g then s else setBarsGroup s b (some g)
  let l := s1.members g
  let toIdx : ℕ := (max 0 (min i ((l.length : ℤ) - 1))).toNat
  { s1 with members := Function.update s1.members g (listMove l (l.indexOf b) toIdx) }

/-- `QCPBarsGroup::remove` (source lines 219-231): route through
`setBarsGroup` when the series is a member, otherwise only log. -/
def removeBars (s : GroupsState β γ) (g : γ) (b : β) : GroupsState β γ :=
  if b ∈ s.members g then setBarsGroup s b none else s

/-- `QCPBarsGroup::clear` (source lines 164-168), also run by the group
destructor: iterate over a copy of the member list, detaching every member
via `setBarsGroup(0)`. -/
def clearGroup (s : GroupsState β γ) (g : γ) : GroupsState β γ :=
  (s.members g).foldl (fun st b => setBarsGroup st b none) s

/-- The membership invariant of claim C6: the back-reference points to a
group exactly when the group's list contains the series, and member lists
hold no duplicates.  (With `barsGroupOf` a function, "at most one group"
follows from the equivalence.) -/
def Inv (s : GroupsState β γ) : Prop :=
  (∀ b g, s.barsGroupOf b = some g ↔ b ∈ s.members g) ∧
  (∀ g, (s.members g).Nodup)

instance [Fintype β] [Fintype γ] (s : GroupsState β γ) : Decidable (Inv s) := by
  unfold Inv
  infer_instance

end GroupsState

/-- The axis collaborator interface used by the bar layout code: the
coordinate-to-pixel transform, the axis rect extents, the orientation and the
range direction (spec section 6). -/
structure QCPAxisModel where
  coordToPixel : ℚ → ℚ
  rectWidth : ℚ
  rectHeight : ℚ
  horizontal : Bool
  rangeReversed : Bool

/-- Bar width interpretation modes (source `QCPBars::WidthType`; the second
constructor is the source's `wtAxisRectRatio`). -/
inductive WidthType where
  | wtAbsolute
  | wtAxisRectFraction
  | wtPlotCoords
deriving DecidableEq

/-- Group spacing interpretation modes (source `QCPBarsGroup::SpacingType`;
the second constructor is the source's `stAxisRectRatio`). -/
inductive SpacingType where
  | stAbsolute
  | stAxisRectFraction
  | stPlotCoords
deriving DecidableEq

/-- The layout-relevant per-series state of a `QCPBars`: width, width mode,
key axis, and the `mBarBelow` link (as the identifier of the series below,
if any). -/
structure BarsLayout where
  mWidth : ℚ
  mWidthType : WidthType
  keyAxis : QCPAxisModel
  barBelowId : Option ℕ

/-- `QCPBars::getPixelWidth` (source lines 913-954): the bar's extents in
pixel space to lower and higher keys relative to the key pixel, returned as
the `(lower, upper)` output pair. -/
def getPixelWidth (bl : BarsLayout) (key : ℚ) : ℚ × ℚ :=
  match bl.mWidthType with
  | WidthType.wtAbsolute =>
      let upper := bl.mWidth * (1/2)
      let lower := -upper
      if xor bl.keyAxis.rangeReversed (!bl.keyAxis.horizontal) then (upper, lower)
      else (lower, upper)
  | WidthType.wtAxisRectFraction =>
      let upper := (if bl.keyAxis.horizontal then bl.keyAxis.rectWidth
        else bl.keyAxis.rectHeight) * bl.mWidth * (1/2)
      let lower := -upper
      if xor bl.keyAxis.rangeReversed (!bl.keyAxis.horizontal) then (upper, lower)
      else (lower, upper)
  | WidthType.wtPlotCoords =>
      let keyPixel := bl.keyAxis.coordToPixel key
      (bl.keyAxis.coordToPixel (key - bl.mWidth * (1/2)) - keyPixel,
       bl.keyAxis.coordToPixel (key + bl.mWidth * (1/2)) - keyPixel)

/-- The group configuration of a `QCPBarsGroup`: the ordered member list
(series identifiers into an environment `ℕ → BarsLayout`), spacing mode and
spacing value. -/
structure BarsGroupState where
  members : List ℕ
  mSpacingType : SpacingType
  mSpacing : ℚ

namespace QCPBarsGroup

/-- `QCPBarsGroup::getPixelSpacing` (source lines 349-371): the spacing in
pixels between a bar and the following one, per spacing mode. -/
def getPixelSpacing (grp : BarsGroupState) (bl : BarsLayout) (keyCoord : ℚ) : ℚ :=
  match grp.mSpacingType with
  | SpacingType.stAbsolute => grp.mSpacing
  | SpacingType.stAxisRectFraction =>
      (if bl.keyAxis.horizontal then bl.keyAxis.rectWidth
       else bl.keyAxis.rectHeight) * grp.mSpacing
  | SpacingType.stPlotCoords =>
      bl.keyAxis.coordToPixel (keyCoord + grp.mSpacing) -
        bl.keyAxis.coordToPixel keyCoord

/-- The `while (b->barBelow()) b = b->barBelow();` walk to the root of a
stack.  The walk of the source terminates because `barBelow` chains are
acyclic (spec data model); the explicit `fuel` bound makes that termination
structural. -/
def barRoot (env : ℕ → BarsLayout) : ℕ → ℕ → ℕ
  | 0, b => b
  | fuel + 1, b =>
      match (env b).barBelowId with
      | none => b
      | some b2 => barRoot env fuel b2

/-- The `baseBars` list of `QCPBarsGroup::keyPixelOffset` (source lines
267-274): the members' stack roots, de-duplicated preserving order. -/
def baseBarsOf (env : ℕ → BarsLayout) (grp : BarsGroupState) (fuel : ℕ) : List ℕ :=
  grp.members.foldl (fun acc bb =>
    let r := barRoot env fuel bb
    if r ∈ acc then acc else acc ++ [r]) []

/-- `QCPBarsGroup::keyPixelOffset` (source lines 264-337): de-duplicate the
members' stack roots preserving order, locate this series' root, and walk
outward from the center accumulating bar widths and spacings with the sign
given by the side. -/
def keyPixelOffset (env : ℕ → BarsLayout) (grp : BarsGroupState) (fuel : ℕ)
    (bars : ℕ) (keyCoord : ℚ) : ℚ :=
  let baseBars := baseBarsOf env grp fuel
  let thisBase := barRoot env fuel bars
  if thisBase ∈ baseBars then
    let index := baseBars.indexOf thisBase
    let n := baseBars.length
    let pixelWidthOf := fun (k : ℕ) =>
      let lw := getPixelWidth (env (baseBars.getD k 0)) keyCoord
      |lw.2 - lw.1|
    let spacingOf := fun (k : ℕ) =>
      getPixelSpacing grp (env (baseBars.getD k 0)) keyCoord
    if n % 2 = 1 ∧ index = (n - 1) / 2 then 0
    else if (index : ℚ) < ((n : ℚ) - 1) / 2 then
      let startIndex := if n % 2 = 0 then n / 2 - 1 else (n - 1) / 2 - 1
      let init : ℚ :=
        if n % 2 = 0 then -(spacingOf (n / 2 - 1) * (1/2))
        else -(pixelWidthOf ((n - 1) / 2) * (1/2)) - spacingOf ((n - 1) / 2)
      let mid := ((List.range' (index + 1) (startIndex - index)).map
        (fun i => pixelWidthOf i + spacingOf i)).sum
      init - mid - pixelWidthOf index * (1/2)
    else
      let startIndex := if n % 2 = 0 then n / 2 else (n - 1) / 2 + 1
      let init : ℚ :=
        if n % 2 = 0 then spacingOf (n / 2) * (1/2)
        else pixelWidthOf ((n - 1) / 2) * (1/2) + spacingOf ((n - 1) / 2)
      let mid := ((List.range' startIndex (index - startIndex)).map
        (fun i => pixelWidthOf i + spacingOf i)).sum
      init + mid + pixelWidthOf index * (1/2)
  else 0

end QCPBarsGroup

/-- Stated from the spec's words for claim C2 (spec section 4.1, buffer
rebuild): for buffer slot `i` compute `position = i/(levelCount-1)`, locate
the first stop with position at least `position`; if none is found use the
last stop's color, if there is no stop strictly before the match (the match
is the first stop) use its color, otherwise interpolate between the
preceding and the matched stop. -/
def QCPColorGradient.bufferEntrySpec (g : QCPColorGradient) (i : ℕ) : RgbColor :=
  let position : ℚ := (i : ℚ) / ((g.mLevelCount : ℚ) - 1)
  match g.mColorStops.find? (fun sp => decide (position ≤ sp.1)) with
  | none => (g.mColorStops.getLastD (0, QCPColorGradient.blackRgb)).2
  | some hi =>
      match (g.mColorStops.takeWhile (fun sp => decide (sp.1 < position))).getLast? with
      | none => hi.2
      | some lo => interpolateStops g.mColorInterpolation lo hi position

/-- Rounding to the nearest integer with ties to even, the rounding step of
IEEE binary64 arithmetic once a value has been scaled by its unit in the
last place. -/
def roundEven (x : ℚ) : ℤ :=
  if x - ⌊x⌋ < 1/2 then ⌊x⌋
  else if 1/2 < x - ⌊x⌋ then ⌊x⌋ + 1
  else if 2 ∣ ⌊x⌋ then ⌊x⌋ else ⌊x⌋ + 1

/-- IEEE binary64 rounding (round to nearest, ties to even) of an exact real
value: the significand is scaled into `[2^52, 2^53)` and rounded to 53 bits.
This models `double` results in the normal range (no overflow and no
subnormals, which the values used below stay far away from). -/
def rn53 (q : ℚ) : ℚ :=
  if q = 0 then 0
  else (roundEven (q / 2 ^ (Int.log 2 |q| - 52)) : ℚ) * 2 ^ (Int.log 2 |q| - 52)

/-- The raw index of `QCPColorGradient::color` (source line 260,
`(position-range.lower)*(mLevelCount-1)/range.size()`) with every `double`
operation rounded by `rn53`, including the `upper - lower` inside
`QCPRange::size`; the trailing C cast truncates. -/
def colorRawIndexF (levelCount : ℕ) (lower upper d : ℚ) : ℤ :=
  ratTrunc (rn53 (rn53 (rn53 (d - lower) * ((levelCount : ℚ) - 1)) /
    rn53 (upper - lower)))

/-- The raw index of the linear `QCPColorGradient::colorize` loops (source
lines 196 and 201/210): the scale `posToIndexFactor = (mLevelCount-1)/
range.size()` is rounded once and then multiplied onto `data[..]-lower`,
every `double` operation rounded by `rn53`. -/
def colorizeRawIndexF (levelCount : ℕ) (lower upper d : ℚ) : ℤ :=
  ratTrunc (rn53 (rn53 (d - lower) *
    rn53 (((levelCount : ℚ) - 1) / rn53 (upper - lower))))

section HelperLemmas

variable {α : Type}

/-- Reading a mapped range list at an in-bounds index. -/
theorem getD_map_range {β : Type} (f : ℕ → β) (n i : ℕ) (hi : i < n) (d : β) :
    ((List.range n).map f).getD i d = f i := by
  rw [List.getD_eq_getElem?_getD, List.getElem?_map, List.getElem?_range hi]
  rfl

/-- `find?` returns exactly the element located by `findIdx`. -/
theorem find?_eq_getElem?_findIdx (p : α → Bool) (l : List α) :
    l.find? p = l[l.findIdx p]? := by
  induction l with
  | nil => rfl
  | cons a l ih =>
      by_cases h : p a <;> simp [List.find?, List.findIdx_cons, h, ih]

end HelperLemmas

/-- Claim C1 as amended: with the index arithmetic carried out in exact
(real) arithmetic, for every gradient state, range, logarithmic flag, and
input array with any stride factor, the i-th color written by `colorize`
equals the color returned by `color` on the corresponding array element, for
every index `i` below the scan-line length.  (Bit-exact parity under IEEE
double rounding is refuted by `colorize_color_double_counterexample`.) -/
theorem colorize_matches_color (g : QCPColorGradient) (data : ℕ → ℚ)
    (range : QCPRange) (n dataIndexFactor : ℕ) (logarithmic : Bool)
    (lnq : ℚ → ℚ) (i : ℕ) (hi : i < n) :
    (QCPColorGradient.colorize g data range n dataIndexFactor logarithmic lnq).getD
        i QCPColorGradient.blackRgb =
      QCPColorGradient.color g (data (dataIndexFactor * i)) range logarithmic lnq := by
  unfold QCPColorGradient.colorize QCPColorGradient.color QCPColorGradient.colorCall
    QCPColorGradient.colorIndex QCPColorGradient.colorRawIndex
    QCPColorGradient.currentBuffer
  by_cases hinv : g.mColorBufferInvalidated <;>
    cases logarithmic <;>
    by_cases hper : g.mPeriodic <;>
    simp only [hinv, hper, if_true, if_false, Bool.false_eq_true, Bool.true_eq_false,
      ite_true, ite_false, getD_map_range _ _ _ hi, mul_div_assoc]

/-- Witness for claim C1 at a concrete gradient, data array and index. -/
theorem colorize_matches_color_witness :
    0 < 3 ∧
    (QCPColorGradient.colorize
        ⟨5, ColorInterpolation.ciRGB, false,
          [(0, qRgb 0 0 0), (1, qRgb 255 255 255)], [], true⟩
        (fun k => (k : ℚ)) ⟨0, 1⟩ 3 2 false (fun _ => 0)).getD 1
        QCPColorGradient.blackRgb =
      QCPColorGradient.color
        ⟨5, ColorInterpolation.ciRGB, false,
          [(0, qRgb 0 0 0), (1, qRgb 255 255 255)], [], true⟩
        ((2 * 1 : ℕ) : ℚ) ⟨0, 1⟩ false (fun _ => 0) :=
  ⟨by decide,
   colorize_matches_color _ (fun k => (k : ℚ)) ⟨0, 1⟩ 3 2 false (fun _ => 0) 1
     (by decide)⟩

/-- The base-2 integer logarithm is determined by a power sandwich. -/
theorem int_log2_eq {q : ℚ} {z : ℤ} (hq : 0 < q) (h1 : 2 ^ z ≤ q)
    (h2 : q < 2 ^ (z + 1)) : Int.log 2 q = z := by
  have hA : ((2 : ℕ) : ℚ) ^ Int.log 2 q ≤ q := Int.zpow_log_le_self (by norm_num) hq
  have hB : q < ((2 : ℕ) : ℚ) ^ (Int.log 2 q + 1) :=
    Int.lt_zpow_succ_log_self (by norm_num) q
  push_cast at hA hB
  by_contra hne
  rcases lt_or_gt_of_ne hne with h | h
  · have hle : (2 : ℚ) ^ (Int.log 2 q + 1) ≤ 2 ^ z :=
      (zpow_le_zpow_iff_right₀ (by norm_num : (1 : ℚ) < 2)).mpr (by omega)
    linarith
  · have hle : (2 : ℚ) ^ (z + 1) ≤ 2 ^ Int.log 2 q :=
      (zpow_le_zpow_iff_right₀ (by norm_num : (1 : ℚ) < 2)).mpr (by omega)
    linarith

/-- Evaluation form of `rn53` on a positive value with a known binade. -/
theorem rn53_eq_of_bounds {q : ℚ} {z : ℤ} (hq : 0 < q) (h1 : 2 ^ z ≤ q)
    (h2 : q < 2 ^ (z + 1)) :
    rn53 q = (roundEven (q / 2 ^ (z - 52)) : ℚ) * 2 ^ (z - 52) := by
  unfold rn53
  rw [if_neg (ne_of_gt hq), abs_of_pos hq, int_log2_eq hq h1 h2]

/-- Counterexample to claim C1 as frozen (bit-exact `colorize`/`color`
parity) once the index arithmetic is carried out in IEEE binary64 doubles:
at levelCount 5 over the range `[0, s]` with
`s = 0x1.a2dacab3e1617p+5 = 7368569025074711 / 2^47` and data value `s/4`,
the factored scale of `colorize` truncates to index 0 while `color`'s
association truncates to index 1, and the corresponding 5-level grayscale
buffer colors differ. -/
theorem colorize_color_double_counterexample :
    colorizeRawIndexF 5 0 ((7368569025074711 : ℚ) / 2 ^ 47)
      ((7368569025074711 : ℚ) / 2 ^ 49) = 0 ∧
    colorRawIndexF 5 0 ((7368569025074711 : ℚ) / 2 ^ 47)
      ((7368569025074711 : ℚ) / 2 ^ 49) = 1 ∧
    QCPColorGradient.bufAt
      (QCPColorGradient.updateColorBuffer
        ⟨5, ColorInterpolation.ciRGB, false,
          [(0, qRgb 0 0 0), (1, qRgb 255 255 255)], [], true⟩) 0 ≠
    QCPColorGradient.bufAt
      (QCPColorGradient.updateColorBuffer
        ⟨5, ColorInterpolation.ciRGB, false,
          [(0, qRgb 0 0 0), (1, qRgb 255 255 255)], [], true⟩) 1 := by
  have hcast : ((5 : ℕ) : ℚ) - 1 = 4 := by norm_num
  have h_s : rn53 ((7368569025074711 : ℚ) / 2 ^ 47) =
      (7368569025074711 : ℚ) / 2 ^ 47 := by
    rw [rn53_eq_of_bounds (z := 5) (by norm_num) (by norm_num) (by norm_num)]
    norm_num [roundEven]
  have h_d : rn53 ((7368569025074711 : ℚ) / 2 ^ 49) =
      (7368569025074711 : ℚ) / 2 ^ 49 := by
    rw [rn53_eq_of_bounds (z := 3) (by norm_num) (by norm_num) (by norm_num)]
    norm_num [roundEven]
  have h_fac : rn53 ((4 : ℚ) / ((7368569025074711 : ℚ) / 2 ^ 47)) =
      (5505114910271475 : ℚ) / 2 ^ 56 := by
    rw [rn53_eq_of_bounds (z := -4) (by norm_num) (by norm_num) (by norm_num)]
    norm_num [roundEven]
  have h_prod : rn53 ((7368569025074711 : ℚ) / 2 ^ 49 *
      ((5505114910271475 : ℚ) / 2 ^ 56)) = (9007199254740991 : ℚ) / 2 ^ 53 := by
    rw [rn53_eq_of_bounds (z := -1) (by norm_num) (by norm_num) (by norm_num)]
    norm_num [roundEven]
  have h_d4 : rn53 ((7368569025074711 : ℚ) / 2 ^ 49 * 4) =
      (7368569025074711 : ℚ) / 2 ^ 47 := by
    rw [rn53_eq_of_bounds (z := 5) (by norm_num) (by norm_num) (by norm_num)]
    norm_num [roundEven]
  have h_one : rn53 (1 : ℚ) = 1 := by
    rw [rn53_eq_of_bounds (z := 0) (by norm_num) (by norm_num) (by norm_num)]
    norm_num [roundEven]
  refine ⟨?_, ?_, ?_⟩
  · unfold colorizeRawIndexF
    rw [hcast, sub_zero, sub_zero, h_s, h_d, h_fac, h_prod]
    unfold ratTrunc
    rw [if_neg (by norm_num)]
    norm_num
  · unfold colorRawIndexF
    rw [hcast, sub_zero, sub_zero, h_s, h_d, h_d4]
    rw [show ((7368569025074711 : ℚ) / 2 ^ 47) / ((7368569025074711 : ℚ) / 2 ^ 47)
      = 1 by norm_num]
    rw [h_one]
    unfold ratTrunc
    rw [if_neg (by norm_num)]
    norm_num
  · have hb0 : QCPColorGradient.bufAt
        (QCPColorGradient.updateColorBuffer
          ⟨5, ColorInterpolation.ciRGB, false,
            [(0, qRgb 0 0 0), (1, qRgb 255 255 255)], [], true⟩) 0 =
        qRgb 0 0 0 := by
      norm_num [QCPColorGradient.bufAt, QCPColorGradient.updateColorBuffer,
        QCPColorGradient.bufferEntry, show List.range 5 = [0, 1, 2, 3, 4] from rfl,
        List.findIdx_cons, interpolateStops, ratTrunc, qRgb,
        QCPColorGradient.blackRgb]
    have hb1 : QCPColorGradient.bufAt
        (QCPColorGradient.updateColorBuffer
          ⟨5, ColorInterpolation.ciRGB, false,
            [(0, qRgb 0 0 0), (1, qRgb 255 255 255)], [], true⟩) 1 =
        qRgb 63 63 63 := by
      norm_num [QCPColorGradient.bufAt, QCPColorGradient.updateColorBuffer,
        QCPColorGradient.bufferEntry, show List.range 5 = [0, 1, 2, 3, 4] from rfl,
        List.findIdx_cons, interpolateStops, ratTrunc, qRgb,
        QCPColorGradient.blackRgb]
    rw [hb0, hb1]
    decide

/-- C++ truncating `%` on a positive divisor exceeds the divisor's
negation. -/
theorem tmod_gt_neg (a : ℤ) {b : ℤ} (hb : 0 < b) : -b < a.tmod b := by
  rcases a with m | m
  · have := Int.tmod_nonneg b (show (0:ℤ) ≤ Int.ofNat m from Int.ofNat_nonneg m)
    omega
  · rcases b with n | n
    · simp only [Int.ofNat_eq_coe] at hb ⊢
      have hn : 0 < n := by exact_mod_cast hb
      have h1 : (m + 1) % n < n := Nat.mod_lt _ hn
      have h2 : (Int.negSucc m).tmod (n : ℤ) = -(((m + 1) % n : ℕ) : ℤ) := rfl
      rw [h2]
      omega
    · exact absurd hb (not_lt.mpr (le_of_lt (Int.negSucc_lt_zero n)))

/-- Claim C8: for every position, range, logarithmic flag and gradient state
with at least 2 levels, the final buffer index of `color` lies in
`[0, levelCount-1]`, whether obtained by the periodic modulo wrap or by the
clamp, so the buffer access is in bounds of the rebuilt buffer. -/
theorem color_index_in_bounds (g : QCPColorGradient) (position : ℚ)
    (range : QCPRange) (logarithmic : Bool) (lnq : ℚ → ℚ)
    (h2 : 2 ≤ g.mLevelCount) :
    0 ≤ QCPColorGradient.colorIndex g position range logarithmic lnq ∧
    QCPColorGradient.colorIndex g position range logarithmic lnq ≤
      (g.mLevelCount : ℤ) - 1 ∧
    (QCPColorGradient.colorIndex g position range logarithmic lnq).toNat <
      (QCPColorGradient.updateColorBuffer g).length := by
  have hlen : (QCPColorGradient.updateColorBuffer g).length = g.mLevelCount := by
    unfold QCPColorGradient.updateColorBuffer
    split_ifs <;> simp
  rw [hlen]
  have hb : (0 : ℤ) < (g.mLevelCount : ℤ) := by exact_mod_cast Nat.lt_of_lt_of_le (by decide) h2
  unfold QCPColorGradient.colorIndex
  set raw := QCPColorGradient.colorRawIndex g position range logarithmic lnq with hraw
  by_cases hper : g.mPeriodic <;>
    simp only [hper, if_true, if_false, Bool.false_eq_true, ite_true, ite_false]
  · unfold QCPColorGradient.wrapIndex
    have h1 : raw.tmod (g.mLevelCount : ℤ) < (g.mLevelCount : ℤ) :=
      Int.tmod_lt_of_pos raw hb
    have h3 : -((g.mLevelCount : ℤ)) < raw.tmod (g.mLevelCount : ℤ) := tmod_gt_neg raw hb
    split_ifs <;> refine ⟨by omega, by omega, by omega⟩
  · unfold QCPColorGradient.clampIndex
    split_ifs <;> refine ⟨by omega, by omega, by omega⟩

/-- Witness for claim C8 at a concrete gradient. -/
theorem color_index_in_bounds_witness :
    2 ≤ (2 : ℕ) ∧
    (0 ≤ QCPColorGradient.colorIndex
        ⟨2, ColorInterpolation.ciRGB, true, [], [], true⟩ 7 ⟨0, 1⟩ false (fun _ => 0) ∧
     QCPColorGradient.colorIndex
        ⟨2, ColorInterpolation.ciRGB, true, [], [], true⟩ 7 ⟨0, 1⟩ false (fun _ => 0) ≤
        ((2 : ℕ) : ℤ) - 1 ∧
     (QCPColorGradient.colorIndex
        ⟨2, ColorInterpolation.ciRGB, true, [], [], true⟩ 7 ⟨0, 1⟩ false
          (fun _ => 0)).toNat <
        (QCPColorGradient.updateColorBuffer
          ⟨2, ColorInterpolation.ciRGB, true, [], [], true⟩).length) :=
  ⟨by decide,
   color_index_in_bounds ⟨2, ColorInterpolation.ciRGB, true, [], [], true⟩ 7 ⟨0, 1⟩
     false (fun _ => 0) (by decide)⟩

/-- Claim C10: gradient equality compares exactly level count, interpolation
mode, periodic flag and the stop mapping, excluding the buffer state; a
`color` call (which may lazily rebuild the buffer) never changes how two
gradients compare, and two consecutive `color` calls with the same arguments
and no intervening mutation return the same color. -/
theorem gradient_equality_ignores_buffer (a b : QCPColorGradient) (position : ℚ)
    (range : QCPRange) (logarithmic : Bool) (lnq : ℚ → ℚ) :
    (QCPColorGradient.gradientEq a b ↔
      (b.mLevelCount = a.mLevelCount ∧
       b.mColorInterpolation = a.mColorInterpolation ∧
       b.mPeriodic = a.mPeriodic ∧ b.mColorStops = a.mColorStops)) ∧
    (QCPColorGradient.gradientEq
        (QCPColorGradient.colorCall a position range logarithmic lnq).2 b ↔
      QCPColorGradient.gradientEq a b) ∧
    (QCPColorGradient.gradientEq a
        (QCPColorGradient.colorCall b position range logarithmic lnq).2 ↔
      QCPColorGradient.gradientEq a b) ∧
    (QCPColorGradient.colorCall a position range logarithmic lnq).1 =
      (QCPColorGradient.colorCall
        (QCPColorGradient.colorCall a position range logarithmic lnq).2
        position range logarithmic lnq).1 := by
  refine ⟨Iff.rfl, ?_, ?_, ?_⟩
  · unfold QCPColorGradient.colorCall
    by_cases hinv : a.mColorBufferInvalidated <;>
      simp [hinv, QCPColorGradient.gradientEq]
  · unfold QCPColorGradient.colorCall
    by_cases hinv : b.mColorBufferInvalidated <;>
      simp [hinv, QCPColorGradient.gradientEq]
  · unfold QCPColorGradient.colorCall
    by_cases hinv : a.mColorBufferInvalidated <;> simp [hinv]

/-- The source's buffer-slot computation coincides with the spec's wording of
the lower-bound search for every stop list and every slot. -/
theorem bufferEntry_eq_spec (g : QCPColorGradient) (i : ℕ) :
    QCPColorGradient.bufferEntry g i = QCPColorGradient.bufferEntrySpec g i := by
  simp only [QCPColorGradient.bufferEntry, QCPColorGradient.bufferEntrySpec, mul_one_div]
  set pos := (i : ℚ) / ((g.mLevelCount : ℚ) - 1) with hpos
  set l := g.mColorStops with hl
  set p : ℚ × RgbColor → Bool := fun sp => decide (pos ≤ sp.1) with hp
  have hfun : (fun a : ℚ × RgbColor => !(decide (a.1 < pos))) = p := by
    funext a
    rw [hp, ← decide_not, decide_eq_decide]
    exact not_lt
  have htw : l.takeWhile (fun sp => decide (sp.1 < pos)) = l.take (l.findIdx p) := by
    rw [List.takeWhile_eq_take_findIdx_not, hfun]
  rw [find?_eq_getElem?_findIdx, htw]
  rcases hx : l[l.findIdx p]? with _ | x
  · have hj : l.length ≤ l.findIdx p := by
      by_contra hcon
      push_neg at hcon
      rw [List.getElem?_eq_getElem hcon] at hx
      cases hx
    have hj2 : l.findIdx p = l.length := le_antisymm (List.findIdx_le_length p) hj
    rw [if_pos hj2]
  · have hj : l.findIdx p < l.length := by
      by_contra hcon
      push_neg at hcon
      rw [List.getElem?_eq_none hcon] at hx
      cases hx
    rw [if_neg (Nat.ne_of_lt hj)]
    rcases Nat.eq_zero_or_pos (l.findIdx p) with h0 | h0
    · rw [if_pos h0, h0]
      rw [h0] at hx
      simp only [List.take_zero, List.getLast?_nil]
      have hhead : l.headD (0, QCPColorGradient.blackRgb) = x := by
        rw [List.headD_eq_head?_getD, List.head?_eq_getElem?, hx]
        rfl
      rw [hhead]
    · rw [if_neg (Nat.pos_iff_ne_zero.mp h0)]
      have hlast : (l.take (l.findIdx p)).getLast? = l[l.findIdx p - 1]? := by
        rw [List.getLast?_eq_getElem?, List.length_take,
          min_eq_left (le_of_lt hj), List.getElem?_take, if_pos (by omega)]
      rcases hy : l[l.findIdx p - 1]? with _ | y
      · exact absurd hy (by
          rw [List.getElem?_eq_getElem (show l.findIdx p - 1 < l.length by omega)]
          exact fun hcon => Option.noConfusion hcon)
      · rw [hlast, hy]
        have hgd : l.getD (l.findIdx p) (0, QCPColorGradient.blackRgb) = x := by
          rw [List.getD_eq_getElem?_getD, hx]
          rfl
        have hgd2 : l.getD (l.findIdx p - 1) (0, QCPColorGradient.blackRgb) = y := by
          rw [List.getD_eq_getElem?_getD, hy]
          rfl
        rw [hgd, hgd2]

/-- Claim C2: the buffer produced by `updateColorBuffer` has exactly
`levelCount` entries; with 0 stops it is all black, with 1 stop it is all
that stop's color, and with at least 2 stops entry `i` is given by the
lower-bound search over the stops at position `i/(levelCount-1)`; the
grayscale example with stops 0 -> black, 1 -> white, RGB mode and
`levelCount = 3` yields black, gray 127 and white. -/
theorem updateColorBuffer_correct :
    (∀ g : QCPColorGradient,
      (QCPColorGradient.updateColorBuffer g).length = g.mLevelCount) ∧
    (∀ g : QCPColorGradient, g.mColorStops = [] →
      QCPColorGradient.updateColorBuffer g =
        List.replicate g.mLevelCount QCPColorGradient.blackRgb) ∧
    (∀ (g : QCPColorGradient) (q : ℚ) (c : RgbColor), g.mColorStops = [(q, c)] →
      QCPColorGradient.updateColorBuffer g = List.replicate g.mLevelCount c) ∧
    (∀ (g : QCPColorGradient) (i : ℕ), 2 ≤ g.mColorStops.length →
      i < g.mLevelCount →
      (QCPColorGradient.updateColorBuffer g).getD i QCPColorGradient.blackRgb =
        QCPColorGradient.bufferEntrySpec g i) ∧
    QCPColorGradient.updateColorBuffer
        ⟨3, ColorInterpolation.ciRGB, false,
          [(0, qRgb 0 0 0), (1, qRgb 255 255 255)], [], true⟩ =
      [qRgb 0 0 0, qRgb 127 127 127, qRgb 255 255 255] := by
  refine ⟨?_, ?_, ?_, ?_, ?_⟩
  · intro g
    unfold QCPColorGradient.updateColorBuffer
    split_ifs <;> simp
  · intro g hstops
    unfold QCPColorGradient.updateColorBuffer
    rw [hstops]
    simp
  · intro g q c hstops
    unfold QCPColorGradient.updateColorBuffer
    rw [hstops]
    simp [List.headD]
  · intro g i hstops hi
    unfold QCPColorGradient.updateColorBuffer
    rw [if_pos (by omega), getD_map_range _ _ _ hi, bufferEntry_eq_spec]
  · unfold QCPColorGradient.updateColorBuffer QCPColorGradient.bufferEntry
    norm_num [show List.range 3 = [0, 1, 2] from rfl, List.findIdx_cons,
      interpolateStops, ratTrunc, qRgb, QCPColorGradient.blackRgb]

/-- Witness for claim C2's conditional parts at a concrete gradient and
index. -/
theorem updateColorBuffer_correct_witness :
    2 ≤ ([((0 : ℚ), qRgb 0 0 0), (1, qRgb 255 255 255)]).length ∧ (1 : ℕ) < 3 ∧
    (QCPColorGradient.updateColorBuffer
        ⟨3, ColorInterpolation.ciRGB, false,
          [(0, qRgb 0 0 0), (1, qRgb 255 255 255)], [], true⟩).getD 1
        QCPColorGradient.blackRgb =
      QCPColorGradient.bufferEntrySpec
        ⟨3, ColorInterpolation.ciRGB, false,
          [(0, qRgb 0 0 0), (1, qRgb 255 255 255)], [], true⟩ 1 :=
  ⟨by decide, by decide,
   updateColorBuffer_correct.2.2.2.1
     ⟨3, ColorInterpolation.ciRGB, false,
       [(0, qRgb 0 0 0), (1, qRgb 255 255 255)], [], true⟩ 1 (by decide) (by decide)⟩

section FoldExtrema

/-- The conditional update of the stacked-max loop is a `max`. -/
theorem ifLtMax (a b : ℚ) : (if a < b then b else a) = max a b := by
  rcases le_or_lt b a with h | h
  · rw [if_neg (not_lt.mpr h), max_eq_left h]
  · rw [if_pos h, (max_eq_right (le_of_lt h))]

/-- The conditional update of the stacked-min loop is a `min`. -/
theorem ifGtMin (a b : ℚ) : (if b < a then b else a) = min a b := by
  rcases le_or_lt a b with h | h
  · rw [if_neg (not_lt.mpr h), min_eq_left h]
  · rw [if_pos h, (min_eq_right (le_of_lt h))]

/-- Pushing an extra `max` through a `max`-fold. -/
theorem foldr_max_swap (vs : List ℚ) (m v : ℚ) :
    vs.foldr max (max m v) = max v (vs.foldr max m) := by
  induction vs with
  | nil => exact max_comm m v
  | cons w vs ih => simp only [List.foldr_cons, ih, max_left_comm]

/-- Pushing an extra `min` through a `min`-fold. -/
theorem foldr_min_swap (vs : List ℚ) (m v : ℚ) :
    vs.foldr min (min m v) = min v (vs.foldr min m) := by
  induction vs with
  | nil => exact min_comm m v
  | cons w vs ih => simp only [List.foldr_cons, ih, min_left_comm]

/-- The guarded `max`-accumulating left fold equals a `max`-fold over the
values passing the guard. -/
theorem foldl_max_filter (P : ℚ × ℚ → Prop) [DecidablePred P]
    (l : List (ℚ × ℚ)) (m : ℚ) :
    l.foldl (fun mx p => if P p then max mx p.2 else mx) m =
      ((l.filter (fun p => decide (P p))).map Prod.snd).foldr max m := by
  induction l generalizing m with
  | nil => rfl
  | cons p l ih =>
      by_cases hP : P p
      · simp only [List.foldl_cons, if_pos hP, List.filter_cons,
          decide_eq_true hP, eq_self_iff_true, if_true, List.map_cons,
          List.foldr_cons, ih, foldr_max_swap]
      · simp only [List.foldl_cons, if_neg hP, List.filter_cons,
          decide_eq_false hP, Bool.false_eq_true, if_false, ih]

/-- The guarded `min`-accumulating left fold equals a `min`-fold over the
values passing the guard. -/
theorem foldl_min_filter (P : ℚ × ℚ → Prop) [DecidablePred P]
    (l : List (ℚ × ℚ)) (m : ℚ) :
    l.foldl (fun mx p => if P p then min mx p.2 else mx) m =
      ((l.filter (fun p => decide (P p))).map Prod.snd).foldr min m := by
  induction l generalizing m with
  | nil => rfl
  | cons p l ih =>
      by_cases hP : P p
      · simp only [List.foldl_cons, if_pos hP, List.filter_cons,
          decide_eq_true hP, eq_self_iff_true, if_true, List.map_cons,
          List.foldr_cons, ih, foldr_min_swap]
      · simp only [List.foldl_cons, if_neg hP, List.filter_cons,
          decide_eq_false hP, Bool.false_eq_true, if_false, ih]

/-- A `max`-fold started at 0 is unchanged by dropping the non-positive
entries. -/
theorem foldr_max_pos_filter (vs : List ℚ) :
    vs.foldr max 0 = (vs.filter (fun v => decide (0 < v))).foldr max 0 := by
  have hnn : ∀ ws : List ℚ, 0 ≤ ws.foldr max 0 := by
    intro ws
    induction ws with
    | nil => exact le_refl 0
    | cons w ws ih => exact le_max_of_le_right ih
  induction vs with
  | nil => rfl
  | cons v vs ih =>
      by_cases hv : 0 < v
      · simp only [List.foldr_cons, List.filter_cons, decide_eq_true hv,
          eq_self_iff_true, if_true, List.foldr_cons, ih]
      · simp only [List.foldr_cons, List.filter_cons, decide_eq_false hv,
          Bool.false_eq_true, if_false, ih]
        exact max_eq_right (le_trans (not_lt.mp hv) (le_trans (hnn _) (le_of_eq ih)))

/-- A `min`-fold started at 0 is unchanged by dropping the non-negative
entries. -/
theorem foldr_min_neg_filter (vs : List ℚ) :
    vs.foldr min 0 = (vs.filter (fun v => decide (v < 0))).foldr min 0 := by
  have hnp : ∀ ws : List ℚ, ws.foldr min 0 ≤ 0 := by
    intro ws
    induction ws with
    | nil => exact le_refl 0
    | cons w ws ih => exact min_le_of_right_le ih
  induction vs with
  | nil => rfl
  | cons v vs ih =>
      by_cases hv : v < 0
      · simp only [List.foldr_cons, List.filter_cons, decide_eq_true hv,
          eq_self_iff_true, if_true, List.foldr_cons, ih]
      · simp only [List.foldr_cons, List.filter_cons, decide_eq_false hv,
          Bool.false_eq_true, if_false, ih]
        exact min_eq_right (le_trans (le_trans (le_of_eq ih.symm) (hnp _)) (not_lt.mp hv))

end FoldExtrema

/-- The stacked-max loop of the source equals the spec's description: the
extremal matching value on the requested sign side, 0 when none
contributes. -/
theorem belowMaxAt_eq_spec (data : List (ℚ × ℚ)) (key : ℚ) (positive : Bool) :
    QCPBars.belowMaxAt data key positive = QCPBars.specContribution data key positive := by
  simp only [QCPBars.belowMaxAt, QCPBars.specContribution]
  cases positive
  · have hstep : (fun (mx : ℚ) (p : ℚ × ℚ) =>
        if key - QCPBars.keyEpsilon key < p.1 ∧ p.1 < key + QCPBars.keyEpsilon key then
          if (false = true ∧ mx < p.2) ∨ (false = false ∧ p.2 < mx) then p.2 else mx
        else mx) = (fun (mx : ℚ) (p : ℚ × ℚ) =>
        if key - QCPBars.keyEpsilon key < p.1 ∧ p.1 < key + QCPBars.keyEpsilon key then
          min mx p.2 else mx) := by
      funext mx p
      by_cases hm : key - QCPBars.keyEpsilon key < p.1 ∧ p.1 < key + QCPBars.keyEpsilon key
      · rw [if_pos hm, if_pos hm]
        simp only [Bool.false_eq_true, false_and, false_or, eq_self_iff_true, true_and]
        exact ifGtMin mx p.2
      · rw [if_neg hm, if_neg hm]
    rw [hstep, foldl_min_filter
      (fun p => key - QCPBars.keyEpsilon key < p.1 ∧ p.1 < key + QCPBars.keyEpsilon key)
      data 0, if_neg Bool.false_ne_true]
    exact foldr_min_neg_filter _
  · have hstep : (fun (mx : ℚ) (p : ℚ × ℚ) =>
        if key - QCPBars.keyEpsilon key < p.1 ∧ p.1 < key + QCPBars.keyEpsilon key then
          if (true = true ∧ mx < p.2) ∨ (true = false ∧ p.2 < mx) then p.2 else mx
        else mx) = (fun (mx : ℚ) (p : ℚ × ℚ) =>
        if key - QCPBars.keyEpsilon key < p.1 ∧ p.1 < key + QCPBars.keyEpsilon key then
          max mx p.2 else mx) := by
      funext mx p
      by_cases hm : key - QCPBars.keyEpsilon key < p.1 ∧ p.1 < key + QCPBars.keyEpsilon key
      · rw [if_pos hm, if_pos hm]
        simp only [Bool.true_eq_false, false_and, or_false, eq_self_iff_true, true_and]
        exact ifLtMax mx p.2
      · rw [if_neg hm, if_neg hm]
    rw [hstep, foldl_max_filter
      (fun p => key - QCPBars.keyEpsilon key < p.1 ∧ p.1 < key + QCPBars.keyEpsilon key)
      data 0, if_pos rfl]
    exact foldr_max_pos_filter _

/-- Claim C3: `getStackedBaseValue` returns the series' own base value
without a series below, and otherwise adds to the recursive result the
extremal below-series value at (approximately) the key on the requested sign
side, 0 when no point matches; the two-series example with bottom base 0 and
bottom point (1,3) yields 3 for the top series at key 1. -/
theorem getStackedBaseValue_correct :
    (∀ (s : BarsData) (chain : List BarsData) (key : ℚ) (positive : Bool),
      QCPBars.getStackedBaseValue s chain key positive =
        match chain with
        | [] => s.mBaseValue
        | b :: rest => QCPBars.specContribution b.points key positive +
            QCPBars.getStackedBaseValue b rest key positive) ∧
    QCPBars.getStackedBaseValue ⟨7, [(1, 2)]⟩ [⟨0, [(1, 3)]⟩] 1 true = 3 := by
  constructor
  · intro s chain key positive
    cases chain with
    | nil => rfl
    | cons b rest =>
        show QCPBars.belowMaxAt b.points key positive + _ = _
        rw [belowMaxAt_eq_spec]
  · show QCPBars.belowMaxAt [(1, 3)] 1 true +
      QCPBars.getStackedBaseValue ⟨0, [(1, 3)]⟩ [] 1 true = 3
    norm_num [QCPBars.belowMaxAt, QCPBars.keyEpsilon, QCPBars.getStackedBaseValue]

/-- One `getValueRange` loop step keeps the base value inside the range and
the found-flags set. -/
theorem valueRangeStep_invariant (sd : SignDomain) (current base : ℚ)
    (acc : QCPRange × Bool × Bool)
    (h : acc.1.lower ≤ base ∧ base ≤ acc.1.upper ∧ acc.2.1 = true ∧ acc.2.2 = true) :
    (QCPBars.valueRangeStep sd current acc).1.lower ≤ base ∧
    base ≤ (QCPBars.valueRangeStep sd current acc).1.upper ∧
    (QCPBars.valueRangeStep sd current acc).2.1 = true ∧
    (QCPBars.valueRangeStep sd current acc).2.2 = true := by
  obtain ⟨h1, h2, h3, h4⟩ := h
  unfold QCPBars.valueRangeStep
  split_ifs with hf hl hu hu2 <;>
    refine ⟨?_, ?_, ?_, ?_⟩ <;>
    simp_all <;> linarith

/-- Claim C7: for every series state and sign-domain filter the range
returned by `getValueRange` contains the series' base value and `foundRange`
is reported true; with base value 0 and single data point (1,5) under
`sdBoth` the range contains both 0 and 5. -/
theorem getValueRange_contains_base :
    (∀ (s : BarsData) (chain : List BarsData) (sd : SignDomain),
      (QCPBars.getValueRange s chain sd).1.lower ≤ s.mBaseValue ∧
      s.mBaseValue ≤ (QCPBars.getValueRange s chain sd).1.upper ∧
      (QCPBars.getValueRange s chain sd).2 = true) ∧
    ((QCPBars.getValueRange ⟨0, [(1, 5)]⟩ [] SignDomain.sdBoth).1.lower ≤ 0 ∧
     0 ≤ (QCPBars.getValueRange ⟨0, [(1, 5)]⟩ [] SignDomain.sdBoth).1.upper ∧
     (QCPBars.getValueRange ⟨0, [(1, 5)]⟩ [] SignDomain.sdBoth).1.lower ≤ 5 ∧
     5 ≤ (QCPBars.getValueRange ⟨0, [(1, 5)]⟩ [] SignDomain.sdBoth).1.upper) := by
  constructor
  · intro s chain sd
    have hfold : ∀ (l : List (ℚ × ℚ)) (acc : QCPRange × Bool × Bool),
        acc.1.lower ≤ s.mBaseValue ∧ s.mBaseValue ≤ acc.1.upper ∧
          acc.2.1 = true ∧ acc.2.2 = true →
        (l.foldl (fun acc p => QCPBars.valueRangeStep sd
            (p.2 + QCPBars.getStackedBaseValue s chain p.1 (decide (0 ≤ p.2))) acc)
          acc).1.lower ≤ s.mBaseValue ∧
        s.mBaseValue ≤ (l.foldl (fun acc p => QCPBars.valueRangeStep sd
            (p.2 + QCPBars.getStackedBaseValue s chain p.1 (decide (0 ≤ p.2))) acc)
          acc).1.upper ∧
        (l.foldl (fun acc p => QCPBars.valueRangeStep sd
            (p.2 + QCPBars.getStackedBaseValue s chain p.1 (decide (0 ≤ p.2))) acc)
          acc).2.1 = true ∧
        (l.foldl (fun acc p => QCPBars.valueRangeStep sd
            (p.2 + QCPBars.getStackedBaseValue s chain p.1 (decide (0 ≤ p.2))) acc)
          acc).2.2 = true := by
      intro l
      induction l with
      | nil => intro acc h; exact h
      | cons p l ih =>
          intro acc h
          exact ih _ (valueRangeStep_invariant sd _ s.mBaseValue acc h)
    have hinit := hfold s.points (⟨s.mBaseValue, s.mBaseValue⟩, true, true)
      ⟨le_refl _, le_refl _, rfl, rfl⟩
    exact ⟨hinit.1, hinit.2.1, rfl⟩
  · norm_num [QCPBars.getValueRange, QCPBars.valueRangeStep,
      QCPBars.getStackedBaseValue]

/-- Claim C9: when the move target uses a different key or value axis, both
`moveBelow` and `moveAbove` abort without touching any stacking link, and a
self-target is likewise a no-op. -/
theorem move_guards_no_effect {ι : Type} [DecidableEq ι] (s : StackState ι) (a b : ι) :
    ((s.keyAx b ≠ s.keyAx a ∨ s.valAx b ≠ s.valAx a) →
      StackState.moveBelow s a (some b) = s ∧ StackState.moveAbove s a (some b) = s) ∧
    (StackState.moveBelow s a (some a) = s ∧ StackState.moveAbove s a (some a) = s) := by
  refine ⟨fun hmis => ⟨?_, ?_⟩, ?_, ?_⟩ <;>
    simp only [StackState.moveBelow, StackState.moveAbove]
  · by_cases hba : b = a
    · rw [if_pos hba]
    · rw [if_neg hba, if_pos hmis]
  · by_cases hba : b = a
    · rw [if_pos hba]
    · rw [if_neg hba, if_pos hmis]
  · rw [if_pos trivial]
  · rw [if_pos trivial]

/-- Witness for claim C9 on a two-series state with distinct key axes. -/
theorem move_guards_no_effect_witness :
    ((StackState.mk (fun _ : Fin 2 => none) (fun _ => none) (fun i => i.val)
        (fun _ => 0)).keyAx 1 ≠
      (StackState.mk (fun _ : Fin 2 => none) (fun _ => none) (fun i => i.val)
        (fun _ => 0)).keyAx 0 ∨
     (StackState.mk (fun _ : Fin 2 => none) (fun _ => none) (fun i => i.val)
        (fun _ => 0)).valAx 1 ≠
      (StackState.mk (fun _ : Fin 2 => none) (fun _ => none) (fun i => i.val)
        (fun _ => 0)).valAx 0) ∧
    StackState.moveBelow (StackState.mk (fun _ : Fin 2 => none) (fun _ => none)
      (fun i => i.val) (fun _ => 0)) 0 (some 1) =
      StackState.mk (fun _ : Fin 2 => none) (fun _ => none) (fun i => i.val)
        (fun _ => 0) ∧
    StackState.moveAbove (StackState.mk (fun _ : Fin 2 => none) (fun _ => none)
      (fun i => i.val) (fun _ => 0)) 0 (some 1) =
      StackState.mk (fun _ : Fin 2 => none) (fun _ => none) (fun i => i.val)
        (fun _ => 0) :=
  ⟨Or.inl (by decide),
   ((move_guards_no_effect _ 0 1).1 (Or.inl (by decide))).1,
   ((move_guards_no_effect _ 0 1).1 (Or.inl (by decide))).2⟩

section StackLemmas

variable {ι : Type} [DecidableEq ι]

/-- The final link assignments of `connectBars` with two present arguments. -/
theorem connectBars_link_fields (s : StackState ι) (l u : ι) :
    (StackState.connectBars s (some l) (some u)).above l = some u ∧
    (StackState.connectBars s (some l) (some u)).below u = some l := by
  refine ⟨?_, ?_⟩ <;>
  · simp only [StackState.connectBars]
    rw [Function.update_same]

/-- With both disconnect guards inert, `connectBars` is exactly the two link
assignments. -/
theorem connectBars_frame (s : StackState ι) (l u : ι)
    (hA : s.above l = none) (hB : s.below u = none) :
    (StackState.connectBars s (some l) (some u)).above =
      Function.update s.above l (some u) ∧
    (StackState.connectBars s (some l) (some u)).below =
      Function.update s.below u (some l) := by
  simp only [StackState.connectBars, hA, hB]
  exact ⟨trivial, trivial⟩

/-- After unlinking `a` (the first `connectBars` of a move), `a` carries no
stale one-sided links (a degenerate self-loop unlinks to a self-loop), and
the links of an unrelated pair `b`, `c` with `c` above `b` survive. -/
theorem moveAbove_step1_facts (s : StackState ι) (a b c : ι)
    (hC : StackState.Consistent s) (hab : a ≠ b) (hcb : s.above b = some c)
    (hca : c ≠ a) :
    (((StackState.connectBars s (s.below a) (s.above a)).below a = none ∧
       (StackState.connectBars s (s.below a) (s.above a)).above a = none) ∨
     ((StackState.connectBars s (s.below a) (s.above a)).below a = some a ∧
       (StackState.connectBars s (s.below a) (s.above a)).above a = some a)) ∧
    (StackState.connectBars s (s.below a) (s.above a)).above b = some c ∧
    (StackState.connectBars s (s.below a) (s.above a)).below c = some b := by
  have hbc : s.below c = some b := (hC b c).mp hcb
  have hba2 : b ≠ a := fun h => hab h.symm
  rcases hba : s.below a with _ | l <;> rcases hau : s.above a with _ | u
  · simp only [StackState.connectBars]
    exact ⟨Or.inl ⟨hba, hau⟩, hcb, hbc⟩
  · -- below a = none, above a = some u
    have hbu : s.below u = some a := (hC a u).mp hau
    have huc : u ≠ c := by
      intro h
      rw [h, hbc] at hbu
      exact hab (Option.some.inj hbu).symm
    simp only [StackState.connectBars, hbu, hau, eq_self_iff_true, if_true]
    refine ⟨Or.inl ⟨?_, ?_⟩, ?_, ?_⟩
    · by_cases hua : a = u
      · subst hua
        rw [Function.update_same]
      · rw [Function.update_noteq hua, hba]
    · rw [Function.update_same]
    · rw [Function.update_noteq hba2, hcb]
    · rw [Function.update_noteq (fun h => huc h.symm), hbc]
  · -- below a = some l, above a = none
    have hal : s.above l = some a := (hC l a).mpr hba
    have hbl : b ≠ l := by
      intro h
      rw [h, hal] at hcb
      exact hca (Option.some.inj hcb).symm
    simp only [StackState.connectBars, hal, hba, eq_self_iff_true, if_true]
    refine ⟨Or.inl ⟨?_, ?_⟩, ?_, ?_⟩
    · rw [Function.update_same]
    · by_cases hal2 : a = l
      · subst hal2
        rw [Function.update_same]
      · rw [Function.update_noteq hal2, hau]
    · rw [Function.update_noteq hbl, hcb]
    · rw [Function.update_noteq hca, hbc]
  · -- below a = some l, above a = some u
    have hal : s.above l = some a := (hC l a).mpr hba
    have hbu : s.below u = some a := (hC a u).mp hau
    have hbl : b ≠ l := by
      intro h
      rw [h, hal] at hcb
      exact hca (Option.some.inj hcb).symm
    have huc : u ≠ c := by
      intro h
      rw [h, hbc] at hbu
      exact hab (Option.some.inj hbu).symm
    simp only [StackState.connectBars, hal, hba, eq_self_iff_true, if_true]
    by_cases hua : u = a
    · have hla : l = a := by
        have h2 := (hC a a).mp (hua ▸ hau)
        rw [hba] at h2
        exact Option.some.inj h2
      subst hua
      subst hla
      simp only [Function.update_same]
      refine ⟨Or.inr ⟨?_, ?_⟩, ?_, ?_⟩
      · trivial
      · trivial
      · rw [Function.update_noteq hba2, hcb]
      · rw [Function.update_noteq hca, Function.update_noteq hca, hbc]
    · have hla : l ≠ a := by
        intro h
        rw [h] at hba
        have h2 := (hC a a).mpr hba
        rw [hau] at h2
        exact hua (Option.some.inj h2)
      simp only [Function.update_noteq hua, hbu, hau, eq_self_iff_true, if_true]
      refine ⟨Or.inl ⟨?_, ?_⟩, ?_, ?_⟩
      · rw [Function.update_noteq (fun h => hua h.symm), Function.update_same]
      · rw [Function.update_noteq (fun h => hla h.symm), Function.update_same]
      · rw [Function.update_noteq hbl, Function.update_noteq hba2, hcb]
      · rw [Function.update_noteq (fun h => huc h.symm), Function.update_noteq hca, hbc]

/-- Splicing `a` below `c` (the optional middle `connectBars` of `moveAbove`)
leaves `a` and `c` mutually linked, `b` with no bar above, and `a` with no
bar below. -/
theorem moveAbove_step2_facts (s1 : StackState ι) (a b c : ι)
    (hab : a ≠ b) (hca : c ≠ a)
    (hEF : (s1.below a = none ∧ s1.above a = none) ∨
           (s1.below a = some a ∧ s1.above a = some a))
    (hG : s1.above b = some c) (hH : s1.below c = some b) :
    (StackState.connectBars s1 (some a) (some c)).above b = none ∧
    (StackState.connectBars s1 (some a) (some c)).below a = none ∧
    (StackState.connectBars s1 (some a) (some c)).above a = some c ∧
    (StackState.connectBars s1 (some a) (some c)).below c = some a := by
  have hba2 : b ≠ a := fun h => hab h.symm
  have hac : a ≠ c := fun h => hca h.symm
  rcases hEF with ⟨hbn, han⟩ | ⟨hbs, has⟩
  · simp only [StackState.connectBars, han, hH, hG, eq_self_iff_true, if_true]
    refine ⟨?_, ?_, ?_, ?_⟩
    · rw [Function.update_noteq hba2, Function.update_same]
    · rw [Function.update_noteq hac, hbn]
    · rw [Function.update_same]
    · rw [Function.update_same]
  · simp only [StackState.connectBars, has, hbs, eq_self_iff_true, if_true,
      Function.update_noteq hca, hH, hG]
    refine ⟨?_, ?_, ?_, ?_⟩
    · rw [Function.update_noteq hba2, Function.update_same]
    · rw [Function.update_noteq hac, Function.update_same]
    · rw [Function.update_same]
    · rw [Function.update_same]

/-- Unlinking `a` from between its two neighbors touches only the links of
`a` and those neighbors: every other series keeps both its links. -/
theorem connectBars_unlink_frame (s : StackState ι) (a l u : ι)
    (hC : StackState.Consistent s) (hl : s.below a = some l)
    (hu : s.above a = some u) (x : ι) (hxa : x ≠ a) (hxl : x ≠ l) (hxu : x ≠ u) :
    (StackState.connectBars s (some l) (some u)).below x = s.below x ∧
    (StackState.connectBars s (some l) (some u)).above x = s.above x := by
  have hal : s.above l = some a := (hC l a).mpr hl
  have hbu : s.below u = some a := (hC a u).mp hu
  simp only [StackState.connectBars, hal, hl, eq_self_iff_true, if_true]
  by_cases hua : u = a
  · have hla : l = a := by
      have h2 := (hC a a).mp (hua ▸ hu)
      rw [hl] at h2
      exact Option.some.inj h2
    subst hua
    subst hla
    simp only [Function.update_same]
    exact ⟨by rw [Function.update_noteq hxa, Function.update_noteq hxa],
           by rw [Function.update_noteq hxa]⟩
  · simp only [Function.update_noteq hua, hbu, hu, eq_self_iff_true, if_true]
    exact ⟨by rw [Function.update_noteq hxu, Function.update_noteq hxa],
           by rw [Function.update_noteq hxl, Function.update_noteq hxa]⟩

end StackLemmas

/-- Claim C4: after `a.moveAbove(b)` on series sharing axes, `a` sits
directly above `b` (`a.barBelow() == b`, `b.barAbove() == a`) and any series
previously above `b` is relinked to sit directly above `a`; after
`a.moveBelow(none)` or `a`'s destruction, `a`'s former below/above neighbors
are linked directly to each other, and every series other than `a` and those
two neighbors keeps both of its links (the rest of the chain is
preserved). -/
theorem moveAbove_relinks {ι : Type} [DecidableEq ι] (s : StackState ι) (a b : ι)
    (hC : StackState.Consistent s) (hab : a ≠ b)
    (hkey : s.keyAx b = s.keyAx a) (hval : s.valAx b = s.valAx a) :
    ((StackState.moveAbove s a (some b)).below a = some b ∧
     (StackState.moveAbove s a (some b)).above b = some a) ∧
    (∀ c, s.above b = some c → c ≠ a →
      (StackState.moveAbove s a (some b)).above a = some c ∧
      (StackState.moveAbove s a (some b)).below c = some a) ∧
    (∀ l u, s.below a = some l → s.above a = some u →
      (StackState.moveBelow s a none).above l = some u ∧
      (StackState.moveBelow s a none).below u = some l ∧
      (StackState.destructUnlink s a).above l = some u ∧
      (StackState.destructUnlink s a).below u = some l ∧
      (∀ x, x ≠ a → x ≠ l → x ≠ u →
        (StackState.moveBelow s a none).below x = s.below x ∧
        (StackState.moveBelow s a none).above x = s.above x ∧
        (StackState.destructUnlink s a).below x = s.below x ∧
        (StackState.destructUnlink s a).above x = s.above x)) := by
  have hba2 : b ≠ a := fun h => hab h.symm
  have hguard : ¬(s.keyAx b ≠ s.keyAx a ∨ s.valAx b ≠ s.valAx a) := by
    push_neg
    exact ⟨hkey, hval⟩
  refine ⟨?_, ?_, ?_⟩
  · simp only [StackState.moveAbove, if_neg hba2, if_neg hguard]
    exact ⟨(connectBars_link_fields _ b a).2, (connectBars_link_fields _ b a).1⟩
  · intro c hcb hca
    obtain ⟨hEF, hG, hH⟩ := moveAbove_step1_facts s a b c hC hab hcb hca
    obtain ⟨hA, hB, hCc, hD⟩ := moveAbove_step2_facts _ a b c hab hca hEF hG hH
    have hmv2 : StackState.moveAbove s a (some b) =
        StackState.connectBars (StackState.connectBars
          (StackState.connectBars s (s.below a) (s.above a)) (some a) (some c))
          (some b) (some a) := by
      simp only [StackState.moveAbove, if_neg hba2, if_neg hguard, hG]
    obtain ⟨hup, hdn⟩ := connectBars_frame _ b a hA hB
    rw [hmv2]
    constructor
    · rw [hup, Function.update_noteq hab, hCc]
    · rw [hdn, Function.update_noteq hca, hD]
  · intro l u hl hu
    have hmb : StackState.moveBelow s a none =
        StackState.connectBars s (some l) (some u) := by
      simp only [StackState.moveBelow, hl, hu]
    have hdes : StackState.destructUnlink s a =
        StackState.connectBars s (some l) (some u) := by
      unfold StackState.destructUnlink
      rw [hl, hu, if_pos (by simp)]
    obtain ⟨h1, h2⟩ := connectBars_link_fields s l u
    rw [hmb, hdes]
    refine ⟨h1, h2, h1, h2, ?_⟩
    intro x hxa hxl hxu
    obtain ⟨f1, f2⟩ := connectBars_unlink_frame s a l u hC hl hu x hxa hxl hxu
    exact ⟨f1, f2, f1, f2⟩

/-- Witness for claim C4 on a concrete consistent three-series state. -/
theorem moveAbove_relinks_witness :
    StackState.Consistent (StackState.mk (fun _ : Fin 3 => none) (fun _ => none)
      (fun _ => 0) (fun _ => 0)) ∧
    (0 : Fin 3) ≠ 1 ∧
    ((StackState.moveAbove (StackState.mk (fun _ : Fin 3 => none) (fun _ => none)
        (fun _ => 0) (fun _ => 0)) 0 (some 1)).below 0 = some 1 ∧
     (StackState.moveAbove (StackState.mk (fun _ : Fin 3 => none) (fun _ => none)
        (fun _ => 0) (fun _ => 0)) 0 (some 1)).above 1 = some 0) :=
  ⟨by decide, by decide,
   (moveAbove_relinks (StackState.mk (fun _ : Fin 3 => none) (fun _ => none)
      (fun _ => 0) (fun _ => 0)) 0 1 (by decide) (by decide) rfl rfl).1⟩

section GroupLemmas

variable {β γ : Type} [DecidableEq β] [DecidableEq γ]

/-- `setBarsGroup` (deregister at the old group, repoint, register at the
new group) preserves the bidirectional membership invariant. -/
theorem setBarsGroup_inv (s : GroupsState β γ) (b : β) (gOpt : Option γ)
    (h : GroupsState.Inv s) : GroupsState.Inv (GroupsState.setBarsGroup s b gOpt) := by
  obtain ⟨hmem, hnd⟩ := h
  rcases hgb : s.barsGroupOf b with _ | old
  · -- b not in any group
    have hnotin : ∀ g', b ∉ s.members g' := fun g' hin => by
      rw [(hmem b g').mpr hin] at hgb
      cases hgb
    rcases gOpt with _ | g
    · have hs : GroupsState.setBarsGroup s b none =
          { s with barsGroupOf := Function.update s.barsGroupOf b none } := by
        simp only [GroupsState.setBarsGroup, hgb]
      rw [hs]
      unfold GroupsState.Inv
      dsimp only
      refine ⟨?_, hnd⟩
      intro x g'
      by_cases hxb : x = b
      · rw [hxb, Function.update_same]
        exact iff_of_false (fun h0 => Option.noConfusion h0) (hnotin g')
      · rw [Function.update_noteq hxb]
        exact hmem x g'
    · have hs : GroupsState.setBarsGroup s b (some g) =
          { members := Function.update s.members g (s.members g ++ [b]),
            barsGroupOf := Function.update s.barsGroupOf b (some g) } := by
        simp only [GroupsState.setBarsGroup, hgb, GroupsState.registerBars]
        rw [if_neg (hnotin g)]
      rw [hs]
      unfold GroupsState.Inv
      dsimp only
      constructor
      · intro x g'
        by_cases hxb : x = b
        · rw [hxb, Function.update_same]
          by_cases hgg : g' = g
          · rw [hgg, Function.update_same]
            exact iff_of_true rfl (by simp)
          · rw [Function.update_noteq hgg]
            exact iff_of_false (fun h0 => hgg (Option.some.inj h0).symm) (hnotin g')
        · rw [Function.update_noteq hxb]
          by_cases hgg : g' = g
          · rw [hgg, Function.update_same]
            have hmm : x ∈ s.members g ++ [b] ↔ x ∈ s.members g := by simp [hxb]
            rw [hmm]
            exact hmem x g
          · rw [Function.update_noteq hgg]
            exact hmem x g'
      · intro g'
        by_cases hgg : g' = g
        · rw [hgg, Function.update_same, List.nodup_append]
          refine ⟨hnd g, List.nodup_singleton b, ?_⟩
          intro y hy hy2
          rw [List.mem_singleton] at hy2
          rw [hy2] at hy
          exact hnotin g hy
        · rw [Function.update_noteq hgg]
          exact hnd g'
  · -- b currently in group old; the unregister step first erases it there
    have hnotin1 : ∀ g',
        b ∉ Function.update s.members old ((s.members old).erase b) g' := by
      intro g'
      by_cases hgo : g' = old
      · rw [hgo, Function.update_same]
        intro hin
        exact (((hnd old).mem_erase_iff).mp hin).1 rfl
      · rw [Function.update_noteq hgo]
        intro hin
        rw [(hmem b g').mpr hin] at hgb
        exact hgo (Option.some.inj hgb)
    have hmem1 : ∀ x g', x ≠ b →
        (s.barsGroupOf x = some g' ↔
          x ∈ Function.update s.members old ((s.members old).erase b) g') := by
      intro x g' hxb
      by_cases hgo : g' = old
      · rw [hgo, Function.update_same, List.mem_erase_of_ne hxb]
        exact hmem x old
      · rw [Function.update_noteq hgo]
        exact hmem x g'
    have hnd1 : ∀ g',
        (Function.update s.members old ((s.members old).erase b) g').Nodup := by
      intro g'
      by_cases hgo : g' = old
      · rw [hgo, Function.update_same]
        exact (hnd old).erase b
      · rw [Function.update_noteq hgo]
        exact hnd g'
    rcases gOpt with _ | g
    · have hs : GroupsState.setBarsGroup s b none =
          { members := Function.update s.members old ((s.members old).erase b),
            barsGroupOf := Function.update s.barsGroupOf b none } := by
        simp only [GroupsState.setBarsGroup, hgb, GroupsState.unregisterBars]
      rw [hs]
      unfold GroupsState.Inv
      dsimp only
      refine ⟨?_, hnd1⟩
      intro x g'
      by_cases hxb : x = b
      · rw [hxb, Function.update_same]
        exact iff_of_false (fun h0 => Option.noConfusion h0) (hnotin1 g')
      · rw [Function.update_noteq hxb]
        exact hmem1 x g' hxb
    · have hs : GroupsState.setBarsGroup s b (some g) =
          { members := Function.update
              (Function.update s.members old ((s.members old).erase b)) g
              (Function.update s.members old ((s.members old).erase b) g ++ [b]),
            barsGroupOf := Function.update s.barsGroupOf b (some g) } := by
        simp only [GroupsState.setBarsGroup, hgb, GroupsState.unregisterBars,
          GroupsState.registerBars]
        rw [if_neg (hnotin1 g)]
      rw [hs]
      unfold GroupsState.Inv
      dsimp only
      constructor
      · intro x g'
        by_cases hxb : x = b
        · rw [hxb, Function.update_same]
          by_cases hgg : g' = g
          · rw [hgg, Function.update_same]
            exact iff_of_true rfl (by simp)
          · rw [Function.update_noteq hgg]
            exact iff_of_false (fun h0 => hgg (Option.some.inj h0).symm) (hnotin1 g')
        · rw [Function.update_noteq hxb]
          by_cases hgg : g' = g
          · rw [hgg, Function.update_same]
            have hmm : x ∈ Function.update s.members old ((s.members old).erase b) g
                ++ [b] ↔
                x ∈ Function.update s.members old ((s.members old).erase b) g := by
              simp [hxb]
            rw [hmm]
            exact hmem1 x g hxb
          · rw [Function.update_noteq hgg]
            exact hmem1 x g' hxb
      · intro g'
        by_cases hgg : g' = g
        · rw [hgg, Function.update_same, List.nodup_append]
          refine ⟨hnd1 g, List.nodup_singleton b, ?_⟩
          intro y hy hy2
          rw [List.mem_singleton] at hy2
          rw [hy2] at hy
          exact hnotin1 g hy
        · rw [Function.update_noteq hgg]
          exact hnd1 g'

/-- Replacing one member list by a permutation of itself preserves the
invariant. -/
theorem inv_update_perm (s : GroupsState β γ) (g : γ) (l2 : List β)
    (hperm : l2.Perm (s.members g)) (h : GroupsState.Inv s) :
    GroupsState.Inv { s with members := Function.update s.members g l2 } := by
  obtain ⟨hmem, hnd⟩ := h
  unfold GroupsState.Inv
  dsimp only
  constructor
  · intro x g'
    by_cases hgg : g' = g
    · rw [hgg, Function.update_same, hperm.mem_iff]
      exact hmem x g
    · rw [Function.update_noteq hgg]
      exact hmem x g'
  · intro g'
    by_cases hgg : g' = g
    · rw [hgg, Function.update_same, hperm.nodup_iff]
      exact hnd g
    · rw [Function.update_noteq hgg]
      exact hnd g'

/-- `QList::move` (remove at one index, re-insert at another in-range index)
permutes the list. -/
theorem listMove_perm (l : List β) (i j : ℕ) (hj : j ≤ l.length - 1) :
    (GroupsState.listMove l i j).Perm l := by
  unfold GroupsState.listMove
  rcases hx : l[i]? with _ | x
  · exact List.Perm.refl l
  · have hil : i < l.length := by
      by_contra hcon
      push_neg at hcon
      rw [List.getElem?_eq_none hcon] at hx
      cases hx
    have hlen : (l.eraseIdx i).length = l.length - 1 := by
      rw [List.length_eraseIdx, if_pos hil]
    have h1 : (List.insertIdx j x (l.eraseIdx i)).Perm (x :: l.eraseIdx i) :=
      List.perm_insertIdx x _ (by rw [hlen]; exact hj)
    have hx2 : l[i] = x := by
      rw [List.getElem?_eq_getElem hil] at hx
      exact Option.some.inj hx
    have h2 : (x :: l.eraseIdx i).Perm l := by
      have e : List.take i l ++ x :: List.drop (i + 1) l = l := by
        rw [← hx2, List.getElem_cons_drop, List.take_append_drop]
      rw [List.eraseIdx_eq_take_drop_succ]
      conv_rhs => rw [← e]
      exact List.perm_middle.symm
    exact h1.trans h2

end GroupLemmas

/-- Claim C6: every public group operation (`setBarsGroup`, `append`,
`insert`, `remove`, `clear`/destruction) preserves bidirectional membership
consistency: a series' group reference points to a group iff the group's
member list contains it, member lists are duplicate-free, and (consequently)
a series belongs to at most one group. -/
theorem group_membership_invariant {β γ : Type} [DecidableEq β] [DecidableEq γ]
    (s : GroupsState β γ) (g : γ) (b : β) (i : ℤ) (gOpt : Option γ)
    (hInv : GroupsState.Inv s) :
    GroupsState.Inv (GroupsState.setBarsGroup s b gOpt) ∧
    GroupsState.Inv (GroupsState.appendBars s g b) ∧
    GroupsState.Inv (GroupsState.insertBars s g i b) ∧
    GroupsState.Inv (GroupsState.removeBars s g b) ∧
    GroupsState.Inv (GroupsState.clearGroup s g) ∧
    (∀ x g1 g2, x ∈ s.members g1 → x ∈ s.members g2 → g1 = g2) := by
  refine ⟨setBarsGroup_inv s b gOpt hInv, ?_, ?_, ?_, ?_, ?_⟩
  · unfold GroupsState.appendBars
    split_ifs
    · exact hInv
    · exact setBarsGroup_inv s b (some g) hInv
  · unfold GroupsState.insertBars
    have hInv1 : GroupsState.Inv
        (if b ∈ s.members g then s else GroupsState.setBarsGroup s b (some g)) := by
      split_ifs
      · exact hInv
      · exact setBarsGroup_inv s b (some g) hInv
    refine inv_update_perm _ g _ (listMove_perm _ _ _ ?_) hInv1
    omega
  · unfold GroupsState.removeBars
    split_ifs
    · exact setBarsGroup_inv s b none hInv
    · exact hInv
  · unfold GroupsState.clearGroup
    have hgen : ∀ (l : List β) (t : GroupsState β γ), GroupsState.Inv t →
        GroupsState.Inv (l.foldl (fun st b2 => GroupsState.setBarsGroup st b2 none) t) := by
      intro l
      induction l with
      | nil => exact fun t ht => ht
      | cons y l ih => exact fun t ht => ih _ (setBarsGroup_inv t y none ht)
    exact hgen _ s hInv
  · intro x g1 g2 h1 h2
    have e1 := (hInv.1 x g1).mpr h1
    have e2 := (hInv.1 x g2).mpr h2
    rw [e1] at e2
    exact Option.some.inj e2

/-- Witness for claim C6 on a concrete two-series, two-group state. -/
theorem group_membership_invariant_witness :
    GroupsState.Inv (GroupsState.mk (fun _ : Fin 2 => ([] : List (Fin 2)))
      (fun _ => none)) ∧
    GroupsState.Inv (GroupsState.appendBars
      (GroupsState.mk (fun _ : Fin 2 => ([] : List (Fin 2))) (fun _ => none)) 0 1) :=
  ⟨by decide,
   (group_membership_invariant
      (GroupsState.mk (fun _ : Fin 2 => ([] : List (Fin 2))) (fun _ => none))
      0 1 0 none (by decide)).2.1⟩

/-- Claim C5: in a group of exactly three stack-root members with equal
width, width mode and key axis at one key coordinate, `keyPixelOffset` puts
the middle member at offset 0 and the outer members at offsets of equal
magnitude and opposite sign. -/
theorem group_offsets_symmetric (env : ℕ → BarsLayout) (grp : BarsGroupState)
    (a b c : ℕ) (keyCoord : ℚ) (fuel : ℕ)
    (hm : grp.members = [a, b, c])
    (hab : a ≠ b) (hac : a ≠ c) (hbc : b ≠ c)
    (hra : (env a).barBelowId = none) (hrb : (env b).barBelowId = none)
    (hrc : (env c).barBelowId = none)
    (hw1 : (env a).mWidth = (env b).mWidth) (hw2 : (env b).mWidth = (env c).mWidth)
    (ht1 : (env a).mWidthType = (env b).mWidthType)
    (ht2 : (env b).mWidthType = (env c).mWidthType)
    (hx1 : (env a).keyAxis = (env b).keyAxis)
    (hx2 : (env b).keyAxis = (env c).keyAxis) :
    QCPBarsGroup.keyPixelOffset env grp fuel b keyCoord = 0 ∧
    QCPBarsGroup.keyPixelOffset env grp fuel a keyCoord =
      -(QCPBarsGroup.keyPixelOffset env grp fuel c keyCoord) := by
  have hroot : ∀ x, (env x).barBelowId = none →
      QCPBarsGroup.barRoot env fuel x = x := by
    intro x hx
    cases fuel with
    | zero => rfl
    | succ n =>
        unfold QCPBarsGroup.barRoot
        rw [hx]
  have hba : b ≠ a := fun h => hab h.symm
  have hca2 : c ≠ a := fun h => hac h.symm
  have hcb : c ≠ b := fun h => hbc h.symm
  have hbase : QCPBarsGroup.baseBarsOf env grp fuel = [a, b, c] := by
    unfold QCPBarsGroup.baseBarsOf
    rw [hm]
    simp [hroot a hra, hroot b hrb, hroot c hrc, hba, hca2, hcb]
  have hwac : getPixelWidth (env a) keyCoord = getPixelWidth (env c) keyCoord := by
    unfold getPixelWidth
    rw [ht1, ht2, hw1, hw2, hx1, hx2]
  have hidxa : List.indexOf a [a, b, c] = 0 := List.indexOf_cons_self a _
  have hidxb : List.indexOf b [a, b, c] = 1 := by
    rw [List.indexOf_cons_ne _ hab, List.indexOf_cons_self]
  have hidxc : List.indexOf c [a, b, c] = 2 := by
    rw [List.indexOf_cons_ne _ hac, List.indexOf_cons_ne _ hbc,
      List.indexOf_cons_self]
  constructor
  · simp only [QCPBarsGroup.keyPixelOffset, hbase, hroot b hrb, hidxb]
    norm_num
  · simp only [QCPBarsGroup.keyPixelOffset, hbase, hroot a hra, hroot c hrc,
      hidxa, hidxc]
    norm_num [List.getD_cons_zero, List.getD_cons_succ, List.range']
    rw [hwac]
    ring

/-- Witness for claim C5 on a concrete three-member group of absolute-width
stack roots. -/
theorem group_offsets_symmetric_witness :
    (BarsGroupState.mk [0, 1, 2] SpacingType.stAbsolute 4).members = [0, 1, 2] ∧
    (QCPBarsGroup.keyPixelOffset
        (fun _ => BarsLayout.mk 1 WidthType.wtAbsolute
          (QCPAxisModel.mk (fun x => x) 100 50 true false) none)
        (BarsGroupState.mk [0, 1, 2] SpacingType.stAbsolute 4) 1 1 0 = 0 ∧
     QCPBarsGroup.keyPixelOffset
        (fun _ => BarsLayout.mk 1 WidthType.wtAbsolute
          (QCPAxisModel.mk (fun x => x) 100 50 true false) none)
        (BarsGroupState.mk [0, 1, 2] SpacingType.stAbsolute 4) 1 0 0 =
      -(QCPBarsGroup.keyPixelOffset
        (fun _ => BarsLayout.mk 1 WidthType.wtAbsolute
          (QCPAxisModel.mk (fun x => x) 100 50 true false) none)
        (BarsGroupState.mk [0, 1, 2] SpacingType.stAbsolute 4) 1 2 0)) :=
  ⟨rfl,
   group_offsets_symmetric
     (fun _ => BarsLayout.mk 1 WidthType.wtAbsolute
       (QCPAxisModel.mk (fun x => x) 100 50 true false) none)
     (BarsGroupState.mk [0, 1, 2] SpacingType.stAbsolute 4) 0 1 2 0 1 rfl
     (by decide) (by decide) (by decide) rfl rfl rfl rfl rfl rfl rfl rfl rfl⟩

end QCPVerify
